import Mathlib

/-!
# Verification of the PracticaLlmBench streaming-dispatcher core

This file gives a shallow embedding, in Lean 4, of the core components of the
PracticaLlmBench repository (TypeScript) and proves / refutes the frozen claims
about them:

* `Semaphore` (src/utils/Semaphore.ts): the concurrency gate;
* the retry loop of `OpenAIAdapter.performComplete` /
  `performCompleteWithTools` (src/adapters/llm/OpenAIAdapter.ts);
* the event-stream decoder `BaseLLMAdapter.readSSEResponse`
  (src/adapters/llm/BaseLLMAdapter.ts) and the tool-call variant
  `OpenAIAdapter.readToolSSEResponse`;
* the line-delimited (NDJSON) decoder `OllamaAdapter.performOllamaStream`
  and the non-streaming `performOllamaChatWithTools`
  (src/adapters/llm/OllamaAdapter.ts);
* the output sanitizer `BaseTask.extractJSON` / `sanitizeJSON`
  (src/core/BaseTask.ts);
* the JSON-expectation routing of `BaseLLMAdapter.complete`.

Strings from the TypeScript side are modelled as `List Char`; `JSON.parse` is
modelled by an executable recursive-descent JSON parser (`parseJson`) over the
standard JSON grammar.  Promises / `await` do not appear: every function is
modelled by its synchronous data flow, and the semaphore by an explicit
labelled transition system over its `active` counter and FIFO waiter queue.
-/

/-! ## Basic string utilities (JS semantics) -/

/-- The whitespace class used by JavaScript `String.prototype.trim` and by the
`\s` regex class, restricted to the ASCII characters that can occur in the
streams at hand: space, tab, line feed, carriage return, vertical tab,
form feed. -/
def jsWs (c : Char) : Bool :=
  c = ' ' || c = '\t' || c = '\n' || c = '\r' ||
  c = Char.ofNat 11 || c = Char.ofNat 12

/-- JavaScript `String.prototype.trim` on a list of characters. -/
def jsTrim (cs : List Char) : List Char :=
  ((cs.dropWhile jsWs).reverse.dropWhile jsWs).reverse

/-- JavaScript `hay.includes(needle)`: substring containment. -/
def jsIncludes (hay needle : List Char) : Bool :=
  match hay with
  | [] => needle.isEmpty
  | _ :: t => needle.isPrefixOf hay || jsIncludes t needle

/-- JavaScript `s.split('\n')` with the final element separated out:
`splitNl cs = (lines, fragment)` where `lines` are the complete
(newline-terminated) lines in order and `fragment` is the text after the
last newline.  This matches the decoders' idiom
`const lines = buffer.split('\n'); buffer = lines.pop()`. -/
def splitNl : List Char → List (List Char) × List Char
  | [] => ([], [])
  | c :: cs =>
    if c = '\n' then
      let r := splitNl cs
      ([] :: r.1, r.2)
    else
      match splitNl cs with
      | ([], frag) => ([], c :: frag)
      | (l :: ls, frag) => ((c :: l) :: ls, frag)

/-- JavaScript `s.split('\n')` proper (used by the Ollama decoder, which
processes every piece including the one after the last newline):
all segments, in order. -/
def splitNlAll (cs : List Char) : List (List Char) :=
  (splitNl cs).1 ++ [(splitNl cs).2]

/-- JavaScript `s.slice(start, stop)` on character lists (non-negative
indices): the segment `[start, stop)`, empty when `stop ≤ start`. -/
def jsSlice (cs : List Char) (start stop : Nat) : List Char :=
  (cs.drop start).take (stop - start)

/-- Index of the first occurrence of `c` (JS `indexOf`, `none` for `-1`). -/
def firstIdx (cs : List Char) (c : Char) : Option Nat :=
  List.findIdx? (· = c) cs

/-- Index of the last occurrence of `c` (JS `lastIndexOf`, `none` for `-1`). -/
def lastIdx (cs : List Char) (c : Char) : Option Nat :=
  match firstIdx cs.reverse c with
  | none => none
  | some i => some (cs.length - 1 - i)

/-! ## The `Semaphore` class (src/utils/Semaphore.ts)

State: `active` (the private `active` counter, which equals the number of
granted-and-unreleased slot holders) and `queue` (the FIFO array of pending
`acquire` resolvers).  For the FIFO claim we instrument the state with ghost
data: waiters are numbered by arrival (`nextId`), and `grants` records, in
order, which queued waiters were handed a freed slot by `release`.  -/

structure SemState where
  active : Nat
  queue : List Nat
  nextId : Nat
  grants : List Nat
  deriving Repr, DecidableEq

/-- The initial semaphore state: no holders, empty queue. -/
def semInit : SemState := ⟨0, [], 0, []⟩

/-- `Semaphore.acquire()`: if `active < maxConcurrency` the slot is granted
immediately (`active++`); otherwise the caller's resolver is pushed onto the
back of `queue`. -/
def semAcquire (cap : Nat) (s : SemState) : SemState :=
  if s.active < cap then
    { s with active := s.active + 1, nextId := s.nextId + 1 }
  else
    { s with queue := s.queue ++ [s.nextId], nextId := s.nextId + 1 }

/-- `Semaphore.release()`: `active--`; then, if a waiter is queued, `shift()`
the front waiter, re-increment `active` and resolve it (recorded in the ghost
`grants` list). -/
def semRelease (s : SemState) : SemState :=
  let a := s.active - 1
  match s.queue with
  | [] => { s with active := a }
  | w :: rest =>
    { s with active := a + 1, queue := rest, grants := s.grants ++ [w] }

/-- One observable step of the semaphore: a new caller arriving at
`acquire`, or a current slot holder running `release`. -/
inductive SemEvent where
  | arrive
  | release
  deriving Repr, DecidableEq

/-- Execute a sequence of events. -/
def semExec (cap : Nat) (s : SemState) : List SemEvent → SemState
  | [] => s
  | SemEvent.arrive :: es => semExec cap (semAcquire cap s) es
  | SemEvent.release :: es => semExec cap (semRelease s) es

/-- An event sequence is reachable through `run()` from state `s` when every
`release` is performed by an actual slot holder: `release` only runs in the
`finally` of `run`, after that call's `acquire` was granted, and the number
of granted-and-unreleased holders is exactly `active`. -/
def semValid (cap : Nat) (s : SemState) : List SemEvent → Bool
  | [] => true
  | SemEvent.arrive :: es => semValid cap (semAcquire cap s) es
  | SemEvent.release :: es => s.active > 0 && semValid cap (semRelease s) es

/-- The `pending` getter: `queue.length`. -/
def SemState.pending (s : SemState) : Nat := s.queue.length

/-- The `running` getter: `active`. -/
def SemState.running (s : SemState) : Nat := s.active

/-- `Semaphore.run(fn)`: `await acquire(); try { return await fn() } finally
{ release() }`.  Modelled for a call that is granted its slot immediately;
`r` is the outcome of `fn` (normal return or thrown error), and the `finally`
applies `release` on both paths. -/
def semRun {ε α : Type} (cap : Nat) (s : SemState) (r : Except ε α) :
    Except ε α × SemState :=
  let s1 := semAcquire cap s
  match r with
  | Except.ok v => (Except.ok v, semRelease s1)
  | Except.error e => (Except.error e, semRelease s1)

/-! ## The retry loop of `OpenAIAdapter.performComplete` and
`performCompleteWithTools` (src/adapters/llm/OpenAIAdapter.ts)

Both methods contain the identical retry loop:
`for (attempt = 1; attempt <= maxRetries; attempt++) { if (attempt > 1) wait
2^attempt * 1000 ms; try { return await <one streamed request> } catch (e)
{ if fatal throw e; lastError = e } } ; throw lastError`.
An attempt's outcome is modelled by `Except (List Char) α` carrying the
thrown error's message on failure.  Besides the result we record the number
of invocations of the attempt and the list of backoff waits (in
milliseconds, in order). -/

/-- The fatal-error classifier used in both catch blocks:
`msg.includes('401') || msg.includes('invalid_api_key')`. -/
def isFatalMsg (msg : List Char) : Bool :=
  jsIncludes msg "401".toList || jsIncludes msg "invalid_api_key".toList

/-- Outcome of a retried call: the propagated result, how many times the
attempt function ran, and the backoff waits performed (ms, in order). -/
structure RetryOutcome (α : Type) where
  result : Except (List Char) α
  calls : Nat
  waits : List Nat
  deriving Repr

/-- The body of the retry loop from iteration `attempt` on, with `lastErr`
the last retryable failure seen so far. -/
def retryFrom {α : Type} (fn : Nat → Except (List Char) α) (maxRetries : Nat)
    (attempt : Nat) (lastErr : Option (List Char)) : RetryOutcome α :=
  if maxRetries < attempt then
    -- loop exhausted: `throw lastError || new Error('Failed after max retries')`
    ⟨Except.error (lastErr.getD "Failed after max retries".toList), 0, []⟩
  else
    let ws := if 1 < attempt then [2 ^ attempt * 1000] else []
    match fn attempt with
    | Except.ok v => ⟨Except.ok v, 1, ws⟩
    | Except.error msg =>
      if isFatalMsg msg then ⟨Except.error msg, 1, ws⟩
      else
        let rest := retryFrom fn maxRetries (attempt + 1) (some msg)
        ⟨rest.result, rest.calls + 1, ws ++ rest.waits⟩
termination_by maxRetries + 1 - attempt
decreasing_by omega

/-- The whole retry loop: attempts start at 1, no failure seen yet. -/
def performRetry {α : Type} (fn : Nat → Except (List Char) α)
    (maxRetries : Nat) : RetryOutcome α :=
  retryFrom fn maxRetries 1 none

/-! ## A model of `JSON.parse`

Executable recursive-descent parser for the JSON grammar (RFC 8259), used by
both stream decoders and by the output sanitizer.  Numbers are represented
exactly as a decimal mantissa/exponent pair (`num m e` denotes `m * 10 ^ e`);
objects keep their members in textual order (JavaScript retains the last
value for a duplicated key, so field access below reads the last match). -/

inductive Json where
  | null
  | bool (b : Bool)
  | num (m : Int) (e : Int)
  | str (s : List Char)
  | arr (elems : List Json)
  | obj (members : List (List Char × Json))
  deriving Repr

/-- JSON insignificant whitespace: space, tab, line feed, carriage return. -/
def jsonWs (c : Char) : Bool :=
  c = ' ' || c = '\t' || c = '\n' || c = '\r'

/-- Skip insignificant whitespace. -/
def skipWs (cs : List Char) : List Char := cs.dropWhile jsonWs

/-- Value of a hex digit. -/
def hexVal (c : Char) : Option Nat :=
  if '0' ≤ c ∧ c ≤ '9' then some (c.toNat - 48)
  else if 'a' ≤ c ∧ c ≤ 'f' then some (c.toNat - 87)
  else if 'A' ≤ c ∧ c ≤ 'F' then some (c.toNat - 55)
  else none

/-- Single-character escapes in JSON strings. -/
def escChar (c : Char) : Option Char :=
  if c = '"' then some '"'
  else if c = '\\' then some '\\'
  else if c = '/' then some '/'
  else if c = 'b' then some (Char.ofNat 8)
  else if c = 'f' then some (Char.ofNat 12)
  else if c = 'n' then some '\n'
  else if c = 'r' then some '\r'
  else if c = 't' then some '\t'
  else none

/-- Parse the body of a JSON string after the opening quote; returns the
decoded characters and the input remaining after the closing quote. -/
def parseStringBody : Nat → List Char → Option (List Char × List Char)
  | 0, _ => none
  | _ + 1, [] => none
  | fuel + 1, c :: rest =>
    if c = '"' then some ([], rest)
    else if c = '\\' then
      match rest with
      | 'u' :: a :: b :: c2 :: d :: rest2 =>
        match hexVal a, hexVal b, hexVal c2, hexVal d with
        | some ha, some hb, some hc, some hd =>
          let code := ((ha * 16 + hb) * 16 + hc) * 16 + hd
          match parseStringBody fuel rest2 with
          | some (s, r) => some (Char.ofNat code :: s, r)
          | none => none
        | _, _, _, _ => none
      | e :: rest2 =>
        match escChar e with
        | some ec =>
          match parseStringBody fuel rest2 with
          | some (s, r) => some (ec :: s, r)
          | none => none
        | none => none
      | [] => none
    else if c.toNat < 32 then none
    else
      match parseStringBody fuel rest with
      | some (s, r) => some (c :: s, r)
      | none => none

/-- Longest prefix of decimal digits, and the rest. -/
def readDigits (cs : List Char) : List Char × List Char :=
  (cs.takeWhile Char.isDigit, cs.dropWhile Char.isDigit)

/-- Numeric value of a digit string. -/
def digitsToNat (ds : List Char) : Nat :=
  ds.foldl (fun a c => a * 10 + (c.toNat - 48)) 0

/-- Optional fraction part `.digits`; fails on a bare dot. -/
def parseFrac : List Char → Option (List Char × List Char)
  | '.' :: t =>
    let (ds, r) := readDigits t
    if ds.isEmpty then none else some (ds, r)
  | cs => some ([], cs)

/-- Optional exponent part `[eE][+-]?digits`. -/
def parseExp (cs : List Char) : Option (Int × List Char) :=
  match cs with
  | c :: t =>
    if c = 'e' ∨ c = 'E' then
      let (sgn, t2) : Int × List Char :=
        match t with
        | '+' :: u => (1, u)
        | '-' :: u => (-1, u)
        | _ => (1, t)
      let (ds, r) := readDigits t2
      if ds.isEmpty then none else some (sgn * (digitsToNat ds : Int), r)
    else some (0, cs)
  | [] => some (0, [])

/-- Parse a JSON number; returns `(mantissa, exponent)` and the rest. -/
def parseNumber (cs : List Char) : Option ((Int × Int) × List Char) :=
  let (neg, cs1) : Bool × List Char :=
    match cs with
    | '-' :: t => (true, t)
    | _ => (false, cs)
  let (ids, cs2) := readDigits cs1
  if ids.isEmpty then none
  else if 1 < ids.length ∧ ids.head? = some '0' then none
  else
    match parseFrac cs2 with
    | none => none
    | some (fds, cs3) =>
      match parseExp cs3 with
      | none => none
      | some (ex, cs4) =>
        let mag : Int := (digitsToNat (ids ++ fds) : Int)
        let m : Int := if neg then -mag else mag
        some ((m, ex - (fds.length : Int)), cs4)

mutual

/-- Parse one JSON value (after skipping leading whitespace). -/
def parseValue : Nat → List Char → Option (Json × List Char)
  | 0, _ => none
  | fuel + 1, cs =>
    match skipWs cs with
    | [] => none
    | 'n' :: 'u' :: 'l' :: 'l' :: r => some (Json.null, r)
    | 't' :: 'r' :: 'u' :: 'e' :: r => some (Json.bool true, r)
    | 'f' :: 'a' :: 'l' :: 's' :: 'e' :: r => some (Json.bool false, r)
    | '"' :: r =>
      match parseStringBody (r.length + 1) r with
      | some (s, r2) => some (Json.str s, r2)
      | none => none
    | '[' :: r =>
      match skipWs r with
      | ']' :: r2 => some (Json.arr [], r2)
      | r2 => parseElems fuel r2 []
    | '{' :: r =>
      match skipWs r with
      | '}' :: r2 => some (Json.obj [], r2)
      | r2 => parseMembers fuel r2 []
    | cs2 =>
      match parseNumber cs2 with
      | some ((m, e), r) => some (Json.num m e, r)
      | none => none

/-- Parse the non-empty element list of a JSON array (after `[`). -/
def parseElems : Nat → List Char → List Json → Option (Json × List Char)
  | 0, _, _ => none
  | fuel + 1, cs, acc =>
    match parseValue fuel cs with
    | none => none
    | some (v, r) =>
      match skipWs r with
      | ',' :: r2 => parseElems fuel r2 (acc ++ [v])
      | ']' :: r2 => some (Json.arr (acc ++ [v]), r2)
      | _ => none

/-- Parse the non-empty member list of a JSON object (after `{`). -/
def parseMembers : Nat → List Char → List (List Char × Json) →
    Option (Json × List Char)
  | 0, _, _ => none
  | fuel + 1, cs, acc =>
    match skipWs cs with
    | '"' :: r =>
      match parseStringBody (r.length + 1) r with
      | none => none
      | some (k, r2) =>
        match skipWs r2 with
        | ':' :: r3 =>
          match parseValue fuel r3 with
          | none => none
          | some (v, r4) =>
            match skipWs r4 with
            | ',' :: r5 => parseMembers fuel r5 (acc ++ [(k, v)])
            | '}' :: r5 => some (Json.obj (acc ++ [(k, v)]), r5)
            | _ => none
        | _ => none
    | _ => none

end

/-- `JSON.parse` on a character list: one value, optionally surrounded by
whitespace, nothing else. -/
def parseJson (cs : List Char) : Option Json :=
  match parseValue (2 * cs.length + 8) cs with
  | none => none
  | some (v, rest) => if (skipWs rest).isEmpty then some v else none

/-! ## JavaScript-side access to parsed JSON values -/

/-- JavaScript truthiness of a parsed JSON value (`undefined` is modelled by
`Option.none` at use sites). -/
def jsTruthy : Json → Bool
  | Json.null => false
  | Json.bool b => b
  | Json.str s => !s.isEmpty
  | Json.num m _ => m ≠ 0
  | Json.arr _ => true
  | Json.obj _ => true

/-- Property access `v.field`: defined members of an object (JavaScript keeps
the last value for a duplicated key from `JSON.parse`); `undefined` (`none`)
on a non-object or a missing key. -/
def getField (v : Json) (key : List Char) : Option Json :=
  match v with
  | Json.obj members => (members.reverse.find? (fun kv => kv.1 = key)).map (·.2)
  | _ => none

/-- The string value of a field, when it is present and a string
(the streams at hand only carry strings in these positions). -/
def getStrField (v : Json) (key : List Char) : Option (List Char) :=
  match getField v key with
  | some (Json.str s) => some s
  | _ => none

/-! ## `BaseLLMAdapter.readSSEResponse` (src/adapters/llm/BaseLLMAdapter.ts)

The event-stream (SSE) decoder.  State per response: the accumulated
`fullText`, the `onChunk` callback invocations in order, the number of
`progress.onToken` / `progress.onThinking` calls, and the carried-over
`buffer` holding the unterminated trailing fragment of the previous chunk.
A `read()` of the underlying stream either delivers a chunk of bytes or
reports `done` with no value, so the `buffer = done ? '' : lines.pop()`
assignment always takes the `lines.pop()` branch while data flows and the
remaining buffer is flushed once after the loop. -/

structure SSEState where
  fullText : List Char
  chunks : List (List Char)
  tokenEvents : Nat
  thinkingEvents : Nat
  buffer : List Char
  deriving Repr, DecidableEq

/-- The initial decoder state. -/
def sseInit : SSEState := ⟨[], [], 0, 0, []⟩

/-- Process one complete line inside the read loop: skip blank lines and the
`data: [DONE]` sentinel; for a `data: ` line parse the JSON payload, count a
thinking event on a truthy `delta.reasoning_content`, and on a truthy
`delta.content` append it to the full text, count a token event and invoke
`onChunk`.  A payload that fails to parse — or a frame whose `choices`
member is missing or `null`, which makes `json.choices[0]` throw — is
swallowed by the `try/catch` and dropped. -/
def sseLine (st : SSEState) (line : List Char) : SSEState :=
  let t := jsTrim line
  if t.isEmpty then st
  else if t = "data: [DONE]".toList then st
  else if "data: ".toList.isPrefixOf t then
    match parseJson (t.drop 6) with
    | none => st
    | some j =>
      match getField j "choices".toList with
      | none => st            -- json.choices undefined: `undefined[0]` throws, caught
      | some Json.null => st  -- json.choices null: `null[0]` throws, caught
      | some (Json.arr l) =>
        let delta : Option Json := l.head?.bind (fun c => getField c "delta".toList)
        let st1 :=
          match delta.bind (fun d => getField d "reasoning_content".toList) with
          | some rc =>
            if jsTruthy rc then { st with thinkingEvents := st.thinkingEvents + 1 }
            else st
          | none => st
        let content : List Char :=
          (delta.bind (fun d => getStrField d "content".toList)).getD []
        if content.isEmpty then st1
        else
          { st1 with fullText := st1.fullText ++ content,
                     chunks := st1.chunks ++ [content],
                     tokenEvents := st1.tokenEvents + 1 }
      | some _ => st  -- choices[0] on a non-array value: no delta, no effect
  else st

/-- Process one delivered chunk: split `buffer + chunk` on `'\n'`, keep the
trailing fragment as the new buffer, and run every complete line through
`sseLine`. -/
def sseChunk (st : SSEState) (chunk : List Char) : SSEState :=
  let split := splitNl (st.buffer ++ chunk)
  let st1 := split.1.foldl sseLine st
  { st1 with buffer := split.2 }

/-- The flush of the remaining buffer after the read loop: same as `sseLine`
for the content/`onChunk` effect, but without the progress events (the flush
block neither checks `reasoning_content` nor calls `progress.onToken`). -/
def sseFlush (st : SSEState) : SSEState :=
  let t := jsTrim st.buffer
  if t.isEmpty then st
  else if "data: ".toList.isPrefixOf t ∧ t ≠ "data: [DONE]".toList then
    match parseJson (t.drop 6) with
    | none => st
    | some j =>
      match getField j "choices".toList with
      | none => st
      | some Json.null => st
      | some (Json.arr l) =>
        let delta : Option Json := l.head?.bind (fun c => getField c "delta".toList)
        let content : List Char :=
          (delta.bind (fun d => getStrField d "content".toList)).getD []
        if content.isEmpty then st
        else
          { st with fullText := st.fullText ++ content,
                    chunks := st.chunks ++ [content] }
      | some _ => st
  else st

/-- The whole decoder: fold the delivered chunks, then flush. -/
def sseDecode (chunks : List (List Char)) : SSEState :=
  sseFlush (chunks.foldl sseChunk sseInit)

/-! ## `OpenAIAdapter.readToolSSEResponse` (src/adapters/llm/OpenAIAdapter.ts)

The tool-call variant of the event-stream decoder.  `toolCallsMap` is a
JavaScript `Map` keyed by the frame's numeric `index`, modelled as an
insertion-ordered association list (numbers as mantissa/exponent pairs as
parsed).  There is no flush of the remaining buffer in this method. -/

structure ToolAcc where
  id : List Char
  name : List Char
  args : List Char
  deriving Repr, DecidableEq

/-- One entry of a `delta.tool_calls` array, as read off the parsed frame:
`index`, and the optional string fields `id`, `function.name`,
`function.arguments`. -/
structure ToolFrag where
  index : Int × Int
  id : Option (List Char)
  fname : Option (List Char)
  fargs : Option (List Char)
  deriving Repr, DecidableEq

/-- Truthiness of an optional string (absent and `''` are falsy). -/
def optTruthy (o : Option (List Char)) : Bool :=
  !(o.getD []).isEmpty

/-- `Map.has`. -/
def mapHas (m : List ((Int × Int) × ToolAcc)) (k : Int × Int) : Bool :=
  m.any (fun e => e.1 = k)

/-- The accumulated entry for a key, if present. -/
def mapGet (m : List ((Int × Int) × ToolAcc)) (k : Int × Int) : Option ToolAcc :=
  (m.find? (fun e => e.1 = k)).map (·.2)

/-- Apply `f` to the entry under `k` (JavaScript mutates the entry object in
place, keeping its position in the Map). -/
def mapUpdate (m : List ((Int × Int) × ToolAcc)) (k : Int × Int)
    (f : ToolAcc → ToolAcc) : List ((Int × Int) × ToolAcc) :=
  m.map (fun e => if e.1 = k then (e.1, f e.2) else e)

/-- Merge one streamed tool-call fragment into the accumulator map:
if the index is new, insert `{id: tc.id || '', name: tc.function?.name || '',
arguments: ''}` at the end of the Map; then on the entry, overwrite `id` /
`name` when the fragment carries a truthy one and append a truthy
`arguments` fragment to the buffer. -/
def mergeTC (m : List ((Int × Int) × ToolAcc)) (f : ToolFrag) :
    List ((Int × Int) × ToolAcc) :=
  let m1 :=
    if mapHas m f.index then m
    else m ++ [(f.index, ⟨f.id.getD [], f.fname.getD [], []⟩)]
  mapUpdate m1 f.index (fun a =>
    { id := if optTruthy f.id then f.id.getD [] else a.id,
      name := if optTruthy f.fname then f.fname.getD [] else a.name,
      args := if optTruthy f.fargs then a.args ++ f.fargs.getD [] else a.args })

/-- Read one element of the parsed `delta.tool_calls` array into a fragment;
an element without a numeric `index` is outside the wire contract and is
skipped. -/
def fragOfJson (tc : Json) : Option ToolFrag :=
  match getField tc "index".toList with
  | some (Json.num m e) =>
    let fn := getField tc "function".toList
    some { index := (m, e),
           id := getStrField tc "id".toList,
           fname := fn.bind (fun v => getStrField v "name".toList),
           fargs := fn.bind (fun v => getStrField v "arguments".toList) }
  | _ => none

structure ToolState where
  content : List Char
  finishReason : List Char
  callsMap : List ((Int × Int) × ToolAcc)
  buffer : List Char
  deriving Repr, DecidableEq

/-- Initial state: `content = ''`, `finishReason = 'stop'`, empty Map. -/
def toolInit : ToolState := ⟨[], "stop".toList, [], []⟩

/-- Process one complete line of the tool-call stream: accumulate a truthy
`delta.content`, merge each entry of `delta.tool_calls`, and record a truthy
`choice.finish_reason` as the last-seen finish reason.  Unparsable payloads
and frames without a usable `choices` array are dropped by the
`try/catch`. -/
def toolLine (st : ToolState) (line : List Char) : ToolState :=
  let t := jsTrim line
  if t.isEmpty then st
  else if t = "data: [DONE]".toList then st
  else if "data: ".toList.isPrefixOf t then
    match parseJson (t.drop 6) with
    | none => st
    | some j =>
      match getField j "choices".toList with
      | none => st
      | some Json.null => st
      | some (Json.arr l) =>
        let choice : Option Json := l.head?
        let delta : Option Json := choice.bind (fun c => getField c "delta".toList)
        let st1 :=
          match (delta.bind (fun d => getStrField d "content".toList)) with
          | some s => if s.isEmpty then st else { st with content := st.content ++ s }
          | none => st
        let st2 :=
          match delta.bind (fun d => getField d "tool_calls".toList) with
          | some (Json.arr items) =>
            { st1 with callsMap := (items.filterMap fragOfJson).foldl mergeTC st1.callsMap }
          | _ => st1
        match choice.bind (fun c => getStrField c "finish_reason".toList) with
        | some fr => if fr.isEmpty then st2 else { st2 with finishReason := fr }
        | none => st2
      | some _ => st
  else st

/-- Process one delivered chunk (same partial-line buffering as
`readSSEResponse`). -/
def toolChunk (st : ToolState) (chunk : List Char) : ToolState :=
  let split := splitNl (st.buffer ++ chunk)
  let st1 := split.1.foldl toolLine st
  { st1 with buffer := split.2 }

/-- A finalized tool call `{id, type: 'function', function: {name,
arguments}}`. -/
structure ToolCall where
  id : List Char
  ctype : List Char
  fname : List Char
  fargs : List Char
  deriving Repr, DecidableEq

/-- `Array.from(toolCallsMap.values()).map(...)`: the Map's entries in
insertion order, finalized. -/
def finalizeToolCalls (m : List ((Int × Int) × ToolAcc)) : List ToolCall :=
  m.map (fun e => ⟨e.2.id, "function".toList, e.2.name, e.2.args⟩)

/-- The normalized result `{content, toolCalls, finishReason}`;
`content: content || null`. -/
structure ToolCallResponse where
  content : Option (List Char)
  toolCalls : List ToolCall
  finishReason : List Char
  deriving Repr, DecidableEq

/-- The whole `readToolSSEResponse` decoder (note: no flush of a trailing
unterminated line — it is discarded, whatever the chunking was). -/
def readToolSSE (chunks : List (List Char)) : ToolCallResponse :=
  let st := chunks.foldl toolChunk toolInit
  { content := if st.content.isEmpty then none else some st.content,
    toolCalls := finalizeToolCalls st.callsMap,
    finishReason := st.finishReason }

/-! ## `OllamaAdapter.performOllamaStream` (src/adapters/llm/OllamaAdapter.ts)

The line-delimited (NDJSON) decoder.  Each delivered chunk is split on
`'\n'` on its own — there is no carry-over buffer, so this decoder processes
every piece of the split including a trailing fragment, and a line broken
across two chunks is parsed as two fragments.  `json.done` ends the read
loop: the remaining lines of the current chunk still run through the `for`
loop, but no further chunk is read. -/

structure OllamaState where
  fullText : List Char
  chunks : List (List Char)
  tokenEvents : Nat
  done : Bool
  deriving Repr, DecidableEq

/-- The initial NDJSON decoder state. -/
def ollamaInit : OllamaState := ⟨[], [], 0, false⟩

/-- Process one line: skip blank lines; parse the line as one JSON object;
on a truthy string `json.response` append it, count a token event and invoke
`onChunk`; a truthy `json.done` marks the end of the stream.  A line that
fails to parse is dropped by the `try/catch`. -/
def ollamaLine (st : OllamaState) (line : List Char) : OllamaState :=
  if (jsTrim line).isEmpty then st
  else
    match parseJson line with
    | none => st
    | some j =>
      let st1 :=
        match getStrField j "response".toList with
        | some s =>
          if s.isEmpty then st
          else { st with fullText := st.fullText ++ s,
                         chunks := st.chunks ++ [s],
                         tokenEvents := st.tokenEvents + 1 }
        | none => st
      match getField j "done".toList with
      | some d => if jsTruthy d then { st1 with done := true } else st1
      | none => st1

/-- Process one delivered chunk: nothing once `done` is set (the `while`
loop has exited); otherwise split the chunk on `'\n'` and process every
piece. -/
def ollamaChunk (st : OllamaState) (chunk : List Char) : OllamaState :=
  if st.done then st
  else (splitNlAll chunk).foldl ollamaLine st

/-- The whole NDJSON decoder over the delivered chunk sequence. -/
def ollamaDecode (chunks : List (List Char)) : OllamaState :=
  chunks.foldl ollamaChunk ollamaInit

/-! ## `OllamaAdapter.performOllamaChatWithTools`
(src/adapters/llm/OllamaAdapter.ts)

The non-streaming chat variant: one JSON body
`{message: {content, tool_calls: [{function: {name, arguments}}]}, done_reason}`.
Each returned call's `arguments` object is re-encoded with `JSON.stringify`. -/

/-- Decimal rendering of an integer. -/
def intToChars (n : Int) : List Char := (toString n).toList

/-- A character that `JSON.stringify` escapes inside a string. -/
def needsEscape (c : Char) : Bool :=
  c = '"' || c = '\\' || c.toNat < 32

/-- `JSON.stringify` escape of one character. -/
def escapeChar (c : Char) : List Char :=
  if c = '"' then ['\\', '"']
  else if c = '\\' then ['\\', '\\']
  else if c = '\n' then ['\\', 'n']
  else if c = '\r' then ['\\', 'r']
  else if c = '\t' then ['\\', 't']
  else if c.toNat < 32 then
    '\\' :: 'u' :: '0' :: '0' ::
      [(Nat.digitChar (c.toNat / 16)), (Nat.digitChar (c.toNat % 16))]
  else [c]

mutual

/-- `JSON.stringify` of a parsed value (numbers with a decimal exponent are
rendered in mantissa/exponent form; the streams at hand only carry
integers). -/
def stringifyJson : Json → List Char
  | Json.null => "null".toList
  | Json.bool true => "true".toList
  | Json.bool false => "false".toList
  | Json.num m e =>
    if e = 0 then intToChars m else intToChars m ++ 'e' :: intToChars e
  | Json.str s => '"' :: (s.flatMap escapeChar) ++ ['"']
  | Json.arr xs => '[' :: stringifyList xs ++ [']']
  | Json.obj kvs => '{' :: stringifyMembers kvs ++ ['}']

/-- Comma-separated rendering of array elements. -/
def stringifyList : List Json → List Char
  | [] => []
  | [x] => stringifyJson x
  | x :: y :: t => stringifyJson x ++ ',' :: stringifyList (y :: t)

/-- Comma-separated rendering of object members. -/
def stringifyMembers : List (List Char × Json) → List Char
  | [] => []
  | [(k, v)] => '"' :: (k.flatMap escapeChar) ++ '"' :: ':' :: stringifyJson v
  | (k, v) :: m :: t =>
    '"' :: (k.flatMap escapeChar) ++ '"' :: ':' :: stringifyJson v ++
      ',' :: stringifyMembers (m :: t)

end

/-- A tool call as it appears in the Ollama chat response body:
`{function: {name, arguments}}` with `arguments` a JSON object. -/
structure OllamaRawCall where
  name : List Char
  args : Json

/-- The result mapping of `performOllamaChatWithTools` applied to the parsed
response body: calls become `{id: "call_i", type: 'function',
function: {name, arguments: JSON.stringify(arguments)}}`; `finishReason` is
`'stop'` when `done_reason === 'stop'`, otherwise `'tool_calls'` when at
least one call was returned, otherwise `'stop'`; `content: content || null`
(with a missing message giving `''`). -/
def ollamaChatResponse (content : Option (List Char))
    (rawCalls : List OllamaRawCall) (doneReason : Option (List Char)) :
    ToolCallResponse :=
  let toolCalls : List ToolCall :=
    (rawCalls.enum).map (fun p =>
      ⟨("call_" ++ toString p.1).toList, "function".toList,
        p.2.name, stringifyJson p.2.args⟩)
  let finishReason : List Char :=
    if doneReason = some "stop".toList then "stop".toList
    else if 0 < toolCalls.length then "tool_calls".toList
    else "stop".toList
  { content := match content with
      | some s => if s.isEmpty then none else some s
      | none => none,
    toolCalls := toolCalls,
    finishReason := finishReason }

/-! ## `BaseTask.extractJSON` and `sanitizeJSON` (src/core/BaseTask.ts)

`extractJSON(text)`: trim; remove every fenced code block (global regex
`/```(?:json)?\s*([\s\S]*?)\s*```/g`, keeping the fenced contents); locate
the first `{` and the last `}` and fail with the no-JSON-found error when
either is absent; slice between them inclusively; apply `sanitizeJSON` —
collapse the duplicated-quote artifact around keys
(`/"\s+"(\w+)"/g → '"$1"'`) and strip trailing commas before a closing
brace/bracket (`/,(\s*[}\]])/g → '$1'`); `JSON.parse`; fail with the
invalid-JSON error (carrying the first 200 characters of the repaired
slice) when parsing fails. -/

/-- A `\w` character: ASCII letter, digit or underscore. -/
def isWordChar (c : Char) : Bool :=
  c.isAlphanum || c = '_'

/-- Trailing `\s*` removal (the part of a fenced block the closing `\s*`
absorbs). -/
def trimRightWs (cs : List Char) : List Char :=
  (cs.reverse.dropWhile jsWs).reverse

/-- Index of the first occurrence of `needle` as a substring. -/
def findStr (needle : List Char) : List Char → Option Nat
  | [] => if needle.isEmpty then some 0 else none
  | c :: t =>
    if needle.isPrefixOf (c :: t) then some 0
    else (findStr needle t).map (· + 1)

/-- The global replace `/```(?:json)?\s*([\s\S]*?)\s*```/g → '$1'`:
at each occurrence of an opening fence, consume an optional `json` label and
the following whitespace, find the earliest closing fence, and emit the
contents with the whitespace before the closing fence stripped; an opening
fence with no closing fence is left in place. -/
def stripFences : Nat → List Char → List Char
  | 0, cs => cs
  | fuel + 1, cs =>
    match cs with
    | [] => []
    | c :: rest =>
      if "```".toList.isPrefixOf cs then
        let afterOpen := cs.drop 3
        let afterLabel :=
          if "json".toList.isPrefixOf afterOpen then afterOpen.drop 4
          else afterOpen
        let body := afterLabel.dropWhile jsWs
        match findStr "```".toList body with
        | none => c :: stripFences fuel rest
        | some q => trimRightWs (body.take q) ++ stripFences fuel (body.drop (q + 3))
      else c :: stripFences fuel rest

/-- The global replace `/"\s+"(\w+)"/g → '"$1"'`: collapse the
duplicated-quote artifact `" "key"` to `"key"`. -/
def fixDupQuotedKeys : Nat → List Char → List Char
  | 0, cs => cs
  | fuel + 1, cs =>
    match cs with
    | [] => []
    | c :: rest =>
      if c = '"' then
        let ws := rest.takeWhile jsWs
        if ws.isEmpty then c :: fixDupQuotedKeys fuel rest
        else
          match rest.drop ws.length with
          | '"' :: r2 =>
            let w := r2.takeWhile isWordChar
            if w.isEmpty then c :: fixDupQuotedKeys fuel rest
            else
              match r2.drop w.length with
              | '"' :: r3 => '"' :: w ++ '"' :: fixDupQuotedKeys fuel r3
              | _ => c :: fixDupQuotedKeys fuel rest
          | _ => c :: fixDupQuotedKeys fuel rest
      else c :: fixDupQuotedKeys fuel rest

/-- The global replace `/,(\s*[}\]])/g → '$1'`: remove a comma standing,
possibly across whitespace, before a closing brace or bracket. -/
def stripTrailingCommas : Nat → List Char → List Char
  | 0, cs => cs
  | fuel + 1, cs =>
    match cs with
    | [] => []
    | c :: rest =>
      if c = ',' then
        let ws := rest.takeWhile jsWs
        match rest.drop ws.length with
        | b :: r2 =>
          if b = '}' ∨ b = ']' then ws ++ b :: stripTrailingCommas fuel r2
          else c :: stripTrailingCommas fuel rest
        | [] => c :: stripTrailingCommas fuel rest
      else c :: stripTrailingCommas fuel rest

/-- `sanitizeJSON`: the two robustness fixes, in the source's order. -/
def sanitizeJSON (cs : List Char) : List Char :=
  let a := fixDupQuotedKeys (cs.length + 1) cs
  stripTrailingCommas (a.length + 1) a

/-- The two failure modes of `extractJSON`, each carrying its bounded
snippet (`slice(0, 200)` of the raw input, resp. of the repaired slice). -/
inductive JErr where
  | noJSONFound (snippet : List Char)
  | invalidJSON (snippet : List Char)
  deriving Repr

/-- The text after trimming and fence removal, in which the braces are
located. -/
def cleanedOf (text : List Char) : List Char :=
  let t := jsTrim text
  stripFences (t.length + 1) t

/-- `BaseTask.extractJSON`. -/
def extractJSON (text : List Char) : Except JErr Json :=
  let clean := cleanedOf text
  match firstIdx clean '{', lastIdx clean '}' with
  | some s, some e =>
    let jsonStr := sanitizeJSON (jsSlice clean s (e + 1))
    match parseJson jsonStr with
    | some v => Except.ok v
    | none => Except.error (JErr.invalidJSON (jsonStr.take 200))
  | _, _ => Except.error (JErr.noJSONFound (text.take 200))

/-! ## JSON-expectation routing of `BaseLLMAdapter.complete`
(src/adapters/llm/BaseLLMAdapter.ts) -/

/-- `JSONSchemaDefinition` (src/core/types.ts). -/
structure JSONSchemaDefinition where
  name : List Char
  description : Option (List Char)
  schema : Json
  strict : Option Bool

/-- `CompletionOptions`: an absent `options` argument is the record with
every field absent. -/
structure CompletionOptions where
  maxTokens : Option Nat
  expectsJSON : Option Bool
  jsonSchema : Option JSONSchemaDefinition

/-- `detectJSONExpectation(prompt)`: the prompt (before template
substitution) contains `'Respond ONLY with JSON'` or `'Return a JSON'`. -/
def detectJSONExpectation (prompt : List Char) : Bool :=
  jsIncludes prompt "Respond ONLY with JSON".toList ||
  jsIncludes prompt "Return a JSON".toList

/-- The `expectsJSON` flag computed by `complete`: an explicitly passed
`options.expectsJSON` wins; otherwise `options?.jsonSchema != null ||
detectJSONExpectation(prompt)`. -/
def completeExpectsJSON (opts : CompletionOptions) (prompt : List Char) : Bool :=
  match opts.expectsJSON with
  | some b => b
  | none => opts.jsonSchema.isSome || detectJSONExpectation prompt

/-- Which sanitizer the raw output is routed through at the end of
`complete`. -/
inductive OutputRoute where
  | extractJSON
  | cleanOutput
  deriving Repr, DecidableEq

/-- `return expectsJSON ? this.extractJSON(raw) : this.cleanOutput(raw)`. -/
def completeRoute (opts : CompletionOptions) (prompt : List Char) : OutputRoute :=
  if completeExpectsJSON opts prompt then OutputRoute.extractJSON
  else OutputRoute.cleanOutput

/-! ## Semaphore invariants (claims C2, C8, C9) -/

/-- The inductive invariant of the semaphore transition system: the active
count never exceeds the capacity; a non-empty waiter queue forces the active
count to the capacity; the ghost arrival numbers along `grants ++ queue` are
strictly increasing; and all of them are below the arrival counter. -/
def SemInv (cap : Nat) (s : SemState) : Prop :=
  s.active ≤ cap ∧ (s.queue ≠ [] → s.active = cap) ∧
  (s.grants ++ s.queue).Pairwise (· < ·) ∧
  ∀ x ∈ s.grants ++ s.queue, x < s.nextId

theorem semInv_init (cap : Nat) : SemInv cap semInit := by
  simp [SemInv, semInit]

theorem semInv_acquire (cap : Nat) (s : SemState) (h : SemInv cap s) :
    SemInv cap (semAcquire cap s) := by
  obtain ⟨h1, h2, h3, h4⟩ := h
  unfold semAcquire
  by_cases hlt : s.active < cap
  · rw [if_pos hlt]
    refine ⟨?_, ?_, ?_, ?_⟩
    · show s.active + 1 ≤ cap
      omega
    · intro hq
      exact absurd (h2 hq) (by omega)
    · exact h3
    · intro x hx
      show x < s.nextId + 1
      exact Nat.lt_succ_of_lt (h4 x hx)
  · rw [if_neg hlt]
    refine ⟨h1, fun _ => ?_, ?_, ?_⟩
    · show s.active = cap
      omega
    · show (s.grants ++ (s.queue ++ [s.nextId])).Pairwise (· < ·)
      rw [show s.grants ++ (s.queue ++ [s.nextId]) =
        (s.grants ++ s.queue) ++ [s.nextId] by simp]
      rw [List.pairwise_append]
      refine ⟨h3, by simp, ?_⟩
      intro a ha b hb
      simp only [List.mem_singleton] at hb
      subst hb
      exact h4 a ha
    · intro x hx
      show x < s.nextId + 1
      rw [show s.grants ++ (s.queue ++ [s.nextId]) =
        (s.grants ++ s.queue) ++ [s.nextId] by simp] at hx
      rcases List.mem_append.mp hx with hx | hx
      · exact Nat.lt_succ_of_lt (h4 x hx)
      · simp only [List.mem_singleton] at hx
        omega

theorem semInv_release (cap : Nat) (s : SemState) (h : SemInv cap s)
    (ha : 0 < s.active) : SemInv cap (semRelease s) := by
  obtain ⟨h1, h2, h3, h4⟩ := h
  unfold semRelease
  cases hq : s.queue with
  | nil =>
    refine ⟨?_, by simp, ?_, ?_⟩
    · show s.active - 1 ≤ cap
      omega
    · show (s.grants ++ []).Pairwise (· < ·)
      simpa [hq] using h3
    · intro x hx
      exact h4 x (by simpa [hq] using hx)
  | cons w rest =>
    have hac : s.active = cap := h2 (by simp [hq])
    refine ⟨?_, fun _ => ?_, ?_, ?_⟩
    · show s.active - 1 + 1 ≤ cap
      omega
    · show s.active - 1 + 1 = cap
      omega
    · show ((s.grants ++ [w]) ++ rest).Pairwise (· < ·)
      have he : (s.grants ++ [w]) ++ rest = s.grants ++ (w :: rest) := by simp
      rw [he, ← hq]
      exact h3
    · intro x hx
      have he : (s.grants ++ [w]) ++ rest = s.grants ++ (w :: rest) := by simp
      rw [he, ← hq] at hx
      exact h4 x hx

theorem semInv_exec (cap : Nat) :
    ∀ (es : List SemEvent) (s : SemState), SemInv cap s →
      semValid cap s es = true → SemInv cap (semExec cap s es)
  | [], s, h, _ => h
  | SemEvent.arrive :: es, s, h, hv =>
    semInv_exec cap es (semAcquire cap s) (semInv_acquire cap s h)
      (by simpa [semValid] using hv)
  | SemEvent.release :: es, s, h, hv => by
    rw [semValid, Bool.and_eq_true] at hv
    exact semInv_exec cap es (semRelease s)
      (semInv_release cap s h (by simpa using hv.1)) hv.2

/-- C2: for a semaphore of capacity `cap ≥ 1` and any interleaving of
acquire/release steps reachable through `run()`, the state reached satisfies
`running() ≤ cap`, and `pending() > 0` implies `running() = cap`.  (As every
prefix of a reachable interleaving is itself reachable, this is the claimed
"at every point" invariant.) -/
theorem semaphore_capacity_invariant (cap : Nat) (es : List SemEvent)
    (hcap : 1 ≤ cap) (hv : semValid cap semInit es = true) :
    (semExec cap semInit es).running ≤ cap ∧
    (0 < (semExec cap semInit es).pending →
      (semExec cap semInit es).running = cap) := by
  have h := semInv_exec cap es semInit (semInv_init cap) hv
  obtain ⟨h1, h2, _, _⟩ := h
  refine ⟨h1, fun hp => h2 ?_⟩
  intro hnil
  rw [SemState.pending, hnil] at hp
  simp at hp

/-- Witness for C2 at `cap = 2` with four arrivals and two releases. -/
theorem semaphore_capacity_invariant_witness :
    (semExec 2 semInit
        [SemEvent.arrive, SemEvent.arrive, SemEvent.arrive, SemEvent.arrive,
         SemEvent.release, SemEvent.release]).running ≤ 2 ∧
    (0 < (semExec 2 semInit
        [SemEvent.arrive, SemEvent.arrive, SemEvent.arrive, SemEvent.arrive,
         SemEvent.release, SemEvent.release]).pending →
      (semExec 2 semInit
        [SemEvent.arrive, SemEvent.arrive, SemEvent.arrive, SemEvent.arrive,
         SemEvent.release, SemEvent.release]).running = 2) :=
  semaphore_capacity_invariant 2 _ (by decide) (by decide)

/-- C9: waiters are granted strictly in arrival order (the ghost `grants`
log is strictly increasing in arrival numbers), granting never pushes the
active count over the capacity, and a release with a queued waiter always
hands the slot to the head of the FIFO queue — the longest-waiting
caller. -/
theorem semaphore_fifo_grants (cap : Nat) (es : List SemEvent)
    (hcap : 1 ≤ cap) (hv : semValid cap semInit es = true) :
    (semExec cap semInit es).grants.Pairwise (· < ·) ∧
    (semExec cap semInit es).running ≤ cap ∧
    (∀ w rest, (semExec cap semInit es).queue = w :: rest →
      (semRelease (semExec cap semInit es)).grants =
          (semExec cap semInit es).grants ++ [w] ∧
        (semRelease (semExec cap semInit es)).queue = rest ∧
        (semRelease (semExec cap semInit es)).running ≤ cap) := by
  have h := semInv_exec cap es semInit (semInv_init cap) hv
  obtain ⟨h1, h2, h3, h4⟩ := h
  refine ⟨(List.pairwise_append.mp h3).1, h1, ?_⟩
  intro w rest hq
  have hac : (semExec cap semInit es).active = cap := h2 (by simp [hq])
  unfold semRelease
  rw [hq]
  exact ⟨rfl, rfl, by simp [SemState.running]; omega⟩

/-- Witness for C9: capacity 1, three arrivals, two releases; the two queued
waiters (arrival numbers 1 and 2) are granted in that order. -/
theorem semaphore_fifo_grants_witness :
    (semExec 1 semInit
        [SemEvent.arrive, SemEvent.arrive, SemEvent.arrive,
         SemEvent.release, SemEvent.release]).grants.Pairwise (· < ·) :=
  (semaphore_fifo_grants 1 _ (by decide) (by decide)).1

/-- C8: `Semaphore.run(fn)` acquires one slot and releases it exactly once
on both exit paths: whether `fn` resolves (`Except.ok`) or throws
(`Except.error`), the propagated outcome is `fn`'s and the `running` and
`pending` counters after the call equal those before it — no slot is
leaked. -/
theorem semaphore_run_balanced {α : Type} (cap : Nat) (s : SemState)
    (r : Except (List Char) α) (hq : s.queue = []) (hlt : s.active < cap) :
    (semRun cap s r).1 = r ∧
    (semRun cap s r).2.running = s.running ∧
    (semRun cap s r).2.pending = s.pending := by
  cases r with
  | ok v =>
    simp [semRun, semAcquire, hlt, semRelease, hq,
      SemState.running, SemState.pending]
  | error e =>
    simp [semRun, semAcquire, hlt, semRelease, hq,
      SemState.running, SemState.pending]

/-- Witness for C8 on the throwing path: capacity 1 from the initial state,
`fn` throwing `'boom'`. -/
theorem semaphore_run_balanced_witness :
    (semRun 1 semInit (Except.error "boom".toList : Except (List Char) Nat)).1 =
        Except.error "boom".toList ∧
    (semRun 1 semInit (Except.error "boom".toList : Except (List Char) Nat)).2.running =
        semInit.running ∧
    (semRun 1 semInit (Except.error "boom".toList : Except (List Char) Nat)).2.pending =
        semInit.pending :=
  semaphore_run_balanced 1 semInit _ (by decide) (by decide)

/-! ## JSON-expectation routing (claim C10) -/

/-- C10: when `options.expectsJSON` is not given, `complete` routes the raw
output through `extractJSON` (rather than `cleanOutput`) exactly when
`options.jsonSchema` is non-null or the prompt contains
`'Respond ONLY with JSON'` or `'Return a JSON'`. -/
theorem complete_json_routing (opts : CompletionOptions) (prompt : List Char)
    (h : opts.expectsJSON = none) :
    completeRoute opts prompt = OutputRoute.extractJSON ↔
      (opts.jsonSchema.isSome = true ∨
        jsIncludes prompt "Respond ONLY with JSON".toList = true ∨
        jsIncludes prompt "Return a JSON".toList = true) := by
  have hb : completeRoute opts prompt = OutputRoute.extractJSON ↔
      completeExpectsJSON opts prompt = true := by
    unfold completeRoute
    by_cases hc : completeExpectsJSON opts prompt = true
    · simp [hc]
    · simp [hc]
  rw [hb]
  unfold completeExpectsJSON detectJSONExpectation
  rw [h]
  simp only [Bool.or_eq_true]

/-- Witness for C10: no options given, prompt containing `'Return a JSON'`. -/
theorem complete_json_routing_witness :
    completeRoute ⟨none, none, none⟩ "Return a JSON object".toList =
      OutputRoute.extractJSON :=
  (complete_json_routing ⟨none, none, none⟩ _ rfl).mpr
    (Or.inr (Or.inr (by decide)))

/-! ## Retry policy (claim C3) -/

/-! ## Retry policy (claim C3) -/

/-- One unfolding of the retry loop. -/
theorem retryFrom_unfold {α : Type} (fn : Nat → Except (List Char) α)
    (m a : Nat) (e : Option (List Char)) :
    retryFrom fn m a e =
      if m < a then
        ⟨Except.error (e.getD "Failed after max retries".toList), 0, []⟩
      else
        match fn a with
        | Except.ok v => ⟨Except.ok v, 1, if 1 < a then [2 ^ a * 1000] else []⟩
        | Except.error msg =>
          if isFatalMsg msg then
            ⟨Except.error msg, 1, if 1 < a then [2 ^ a * 1000] else []⟩
          else
            ⟨(retryFrom fn m (a + 1) (some msg)).result,
              (retryFrom fn m (a + 1) (some msg)).calls + 1,
              (if 1 < a then [2 ^ a * 1000] else []) ++
                (retryFrom fn m (a + 1) (some msg)).waits⟩ := by
  rw [retryFrom]

/-- The attempt function runs at most `m + 1 - a` more times from iteration
`a` on. -/
theorem retryFrom_calls_le {α : Type} (fn : Nat → Except (List Char) α)
    (m : Nat) :
    ∀ (k a : Nat) (e : Option (List Char)), m + 1 - a ≤ k →
      (retryFrom fn m a e).calls ≤ m + 1 - a := by
  intro k
  induction k with
  | zero =>
    intro a e h
    rw [retryFrom_unfold, if_pos (by omega)]
    show (0 : Nat) ≤ m + 1 - a
    omega
  | succ k ih =>
    intro a e h
    rw [retryFrom_unfold]
    by_cases hma : m < a
    · rw [if_pos hma]
      show (0 : Nat) ≤ m + 1 - a
      omega
    · rw [if_neg hma]
      cases hfn : fn a with
      | ok v =>
        show (1 : Nat) ≤ m + 1 - a
        omega
      | error msg =>
        by_cases hf : isFatalMsg msg = true
        · simp only [hf, if_true]
          show (1 : Nat) ≤ m + 1 - a
          omega
        · have hf' : isFatalMsg msg = false := by simpa using hf
          simp only [hf', Bool.false_eq_true, if_false]
          show (retryFrom fn m (a + 1) (some msg)).calls + 1 ≤ m + 1 - a
          have := ih (a + 1) (some msg) (by omega)
          omega

/-- From an iteration `a ≥ 2` every executed attempt is preceded by its
backoff wait of `2 ^ attempt * 1000` ms. -/
theorem retryFrom_waits {α : Type} (fn : Nat → Except (List Char) α)
    (m : Nat) :
    ∀ (k a : Nat) (e : Option (List Char)), m + 1 - a ≤ k → 2 ≤ a →
      (retryFrom fn m a e).waits =
        (List.range (retryFrom fn m a e).calls).map
          (fun i => 2 ^ (a + i) * 1000) := by
  intro k
  induction k with
  | zero =>
    intro a e h h2
    rw [retryFrom_unfold, if_pos (by omega)]
    simp
  | succ k ih =>
    intro a e h h2
    have h1a : (1 : Nat) < a := by omega
    rw [retryFrom_unfold]
    by_cases hma : m < a
    · rw [if_pos hma]
      simp
    · rw [if_neg hma]
      cases hfn : fn a with
      | ok v =>
        simp only [if_pos h1a]
        show [2 ^ a * 1000] =
          (List.range (1 : Nat)).map (fun i => 2 ^ (a + i) * 1000)
        rw [show List.range 1 = [0] from rfl]
        simp
      | error msg =>
        by_cases hf : isFatalMsg msg = true
        · simp only [hf, if_true, if_pos h1a]
          show [2 ^ a * 1000] =
            (List.range (1 : Nat)).map (fun i => 2 ^ (a + i) * 1000)
          rw [show List.range 1 = [0] from rfl]
          simp
        · have hf' : isFatalMsg msg = false := by simpa using hf
          simp only [hf', Bool.false_eq_true, if_false, if_pos h1a]
          show 2 ^ a * 1000 :: (retryFrom fn m (a + 1) (some msg)).waits =
            (List.range ((retryFrom fn m (a + 1) (some msg)).calls + 1)).map
              (fun i => 2 ^ (a + i) * 1000)
          rw [ih (a + 1) (some msg) (by omega) (by omega)]
          rw [List.range_succ_eq_map, List.map_cons, List.map_map]
          refine congrArg₂ _ (by simp) ?_
          apply List.map_congr_left
          intro i _
          show 2 ^ (a + 1 + i) * 1000 = 2 ^ (a + (i + 1)) * 1000
          congr 2
          omega

/-- If every attempt up to the budget fails retryably, the loop runs all
remaining attempts and propagates the last failure. -/
theorem retryFrom_all_retryable {α : Type} (fn : Nat → Except (List Char) α)
    (m : Nat) (msgs : Nat → List Char)
    (hf : ∀ a, 1 ≤ a → a ≤ m → fn a = Except.error (msgs a))
    (hnf : ∀ a, 1 ≤ a → a ≤ m → isFatalMsg (msgs a) = false) :
    ∀ (k a : Nat) (e : Option (List Char)), m + 1 - a ≤ k → 1 ≤ a → a ≤ m →
      (retryFrom fn m a e).result = Except.error (msgs m) ∧
        (retryFrom fn m a e).calls = m + 1 - a := by
  intro k
  induction k with
  | zero =>
    intro a e h h1 hm
    omega
  | succ k ih =>
    intro a e h h1 hm
    rw [retryFrom_unfold, if_neg (by omega), hf a h1 hm]
    simp only [hnf a h1 hm, Bool.false_eq_true, if_false]
    by_cases hlast : a = m
    · subst hlast
      rw [retryFrom_unfold, if_pos (by omega)]
      refine ⟨rfl, ?_⟩
      show (0 : Nat) + 1 = a + 1 - a
      omega
    · have hrec := ih (a + 1) (some (msgs a)) (by omega) (by omega) (by omega)
      refine ⟨hrec.1, ?_⟩
      show (retryFrom fn m (a + 1) (some (msgs a))).calls + 1 = m + 1 - a
      rw [hrec.2]
      omega

/-- C3: the retry loop of the non-streaming completion and tool-calling
paths (a) invokes the attempt at most `m` times, (b) performs, before each
attempt after the first, the backoff wait of `2 ^ attempt * 1000` ms (that
is, `2 ^ attempt` time units of one second — attempts are numbered from 1,
so the waits are `2^2, 2^3, …` units before attempts `2, 3, …`), (c) on a
fatal failure (the `401` / `invalid_api_key` classifier) of the first
attempt propagates it immediately with exactly one invocation regardless of
the budget, (d) when all `m` attempts fail retryably propagates the last
failure after exactly `m` invocations, and (e) with budget 3 and an attempt
failing retryably twice then succeeding, invokes it exactly 3 times, waits
`2^2` and `2^3` seconds, and returns the success value. -/
theorem retry_policy (α : Type) :
    (∀ (fn : Nat → Except (List Char) α) (m : Nat),
      (performRetry fn m).calls ≤ m) ∧
    (∀ (fn : Nat → Except (List Char) α) (m : Nat),
      (performRetry fn m).waits =
        (List.range ((performRetry fn m).calls - 1)).map
          (fun i => 2 ^ (i + 2) * 1000)) ∧
    (∀ (fn : Nat → Except (List Char) α) (m : Nat) (msg : List Char),
      1 ≤ m → fn 1 = Except.error msg → isFatalMsg msg = true →
      performRetry fn m = ⟨Except.error msg, 1, []⟩) ∧
    (∀ (fn : Nat → Except (List Char) α) (m : Nat) (msgs : Nat → List Char),
      1 ≤ m → (∀ a, 1 ≤ a → a ≤ m → fn a = Except.error (msgs a)) →
      (∀ a, 1 ≤ a → a ≤ m → isFatalMsg (msgs a) = false) →
      (performRetry fn m).result = Except.error (msgs m) ∧
        (performRetry fn m).calls = m) ∧
    (∀ (fn : Nat → Except (List Char) α) (m1 m2 : List Char) (v : α),
      fn 1 = Except.error m1 → fn 2 = Except.error m2 →
      isFatalMsg m1 = false → isFatalMsg m2 = false → fn 3 = Except.ok v →
      performRetry fn 3 = ⟨Except.ok v, 3, [2 ^ 2 * 1000, 2 ^ 3 * 1000]⟩) := by
  refine ⟨?_, ?_, ?_, ?_, ?_⟩
  · intro fn m
    have h := retryFrom_calls_le fn m m 1 none (by omega)
    unfold performRetry
    omega
  · intro fn m
    unfold performRetry
    rw [retryFrom_unfold]
    by_cases hm : m < 1
    · rw [if_pos hm]
      simp
    · rw [if_neg hm]
      cases hfn : fn 1 with
      | ok v => simp
      | error msg =>
        by_cases hfat : isFatalMsg msg = true
        · simp [hfat]
        · have hf' : isFatalMsg msg = false := by simpa using hfat
          simp only [hf', Bool.false_eq_true, if_false]
          show (if (1 : Nat) < 1 then [2 ^ 1 * 1000] else []) ++
              (retryFrom fn m 2 (some msg)).waits =
            (List.range ((retryFrom fn m 2 (some msg)).calls + 1 - 1)).map
              (fun i => 2 ^ (i + 2) * 1000)
          rw [if_neg (by omega), retryFrom_waits fn m m 2 (some msg) (by omega) (by omega)]
          simp only [Nat.add_sub_cancel, List.nil_append]
          apply List.map_congr_left
          intro i _
          show 2 ^ (2 + i) * 1000 = 2 ^ (i + 2) * 1000
          congr 2
          omega
  · intro fn m msg hm h1 hfat
    unfold performRetry
    rw [retryFrom_unfold, if_neg (by omega), h1]
    simp only [hfat, if_true]
    norm_num
  · intro fn m msgs hm hf hnf
    have h := retryFrom_all_retryable fn m msgs hf hnf m 1 none (by omega)
      (by omega) hm
    unfold performRetry
    exact ⟨h.1, by omega⟩
  · intro fn m1 m2 v h1 h2 hf1 hf2 h3
    unfold performRetry
    rw [retryFrom_unfold, if_neg (by omega), h1]
    simp only [hf1, Bool.false_eq_true, if_false]
    rw [retryFrom_unfold fn 3 2 (some m1), if_neg (by omega), h2]
    simp only [hf2, Bool.false_eq_true, if_false]
    rw [retryFrom_unfold fn 3 3 (some m2), if_neg (by omega), h3]
    simp

/-- Witness for C3: budget 3, an attempt failing retryably twice then
returning 7 — invoked three times, backoffs of `2^2` and `2^3` seconds,
success returned. -/
theorem retry_policy_witness :
    performRetry
        (fun a => if a ≤ 2 then Except.error "boom".toList else Except.ok 7) 3 =
      ⟨Except.ok 7, 3, [2 ^ 2 * 1000, 2 ^ 3 * 1000]⟩ :=
  (retry_policy Nat).2.2.2.2 _ "boom".toList "boom".toList 7 rfl rfl
    (by decide) (by decide) rfl

/-! ## Tool-call fragment accumulation (claims C4, C5) -/

/-- The Map's keys in insertion order. -/
def mapKeys (m : List ((Int × Int) × ToolAcc)) : List (Int × Int) :=
  m.map (·.1)

/-- The accumulated `arguments` buffer under a key. -/
def argsOf (m : List ((Int × Int) × ToolAcc)) (k : Int × Int) :
    Option (List Char) :=
  (mapGet m k).map (·.args)

/-- The accumulated `name` under a key. -/
def nameOf (m : List ((Int × Int) × ToolAcc)) (k : Int × Int) :
    Option (List Char) :=
  (mapGet m k).map (·.name)

/-- The accumulated `id` under a key. -/
def idOf (m : List ((Int × Int) × ToolAcc)) (k : Int × Int) :
    Option (List Char) :=
  (mapGet m k).map (·.id)

theorem mapGet_update (m : List ((Int × Int) × ToolAcc)) (k : Int × Int)
    (g : ToolAcc → ToolAcc) :
    mapGet (mapUpdate m k g) k = (mapGet m k).map g := by
  induction m with
  | nil => rfl
  | cons e t ih =>
    by_cases he : e.1 = k
    · simp [mapGet, mapUpdate, List.find?_cons, he]
    · simp only [mapGet, mapUpdate, List.map_cons] at *
      rw [if_neg he]
      rw [List.find?_cons_of_neg _ (by simpa using he),
        List.find?_cons_of_neg _ (by simpa using he)]
      exact ih

theorem mapGet_update_ne (m : List ((Int × Int) × ToolAcc)) (k k' : Int × Int)
    (g : ToolAcc → ToolAcc) (h : k' ≠ k) :
    mapGet (mapUpdate m k g) k' = mapGet m k' := by
  induction m with
  | nil => rfl
  | cons e t ih =>
    by_cases he : e.1 = k
    · subst he
      simp only [mapGet, mapUpdate, List.map_cons, if_pos rfl]
      rw [List.find?_cons_of_neg _ (by simpa using (Ne.symm h)),
        List.find?_cons_of_neg _ (by simpa using (Ne.symm h))]
      exact ih
    · simp only [mapGet, mapUpdate, List.map_cons]
      rw [if_neg he]
      by_cases he' : e.1 = k'
      · rw [List.find?_cons_of_pos _ (by simpa using he'),
          List.find?_cons_of_pos _ (by simpa using he')]
      · rw [List.find?_cons_of_neg _ (by simpa using he'),
          List.find?_cons_of_neg _ (by simpa using he')]
        exact ih

theorem mapHas_iff (m : List ((Int × Int) × ToolAcc)) (k : Int × Int) :
    mapHas m k = true ↔ k ∈ mapKeys m := by
  simp only [mapHas, mapKeys, List.any_eq_true, List.mem_map,
    decide_eq_true_eq]

theorem mapGet_eq_none (m : List ((Int × Int) × ToolAcc)) (k : Int × Int)
    (h : mapHas m k = false) : mapGet m k = none := by
  induction m with
  | nil => rfl
  | cons e t ih =>
    simp only [mapHas, List.any_cons, Bool.or_eq_false_iff] at h
    simp only [mapGet]
    rw [List.find?_cons_of_neg _ (by simpa using h.1)]
    exact ih (by simpa [mapHas] using h.2)

theorem mapGet_append_new (m : List ((Int × Int) × ToolAcc)) (k : Int × Int)
    (v : ToolAcc) (h : mapHas m k = false) :
    mapGet (m ++ [(k, v)]) k = some v := by
  induction m with
  | nil => simp [mapGet, List.find?_cons]
  | cons e t ih =>
    simp only [mapHas, List.any_cons, Bool.or_eq_false_iff] at h
    simp only [mapGet, List.cons_append]
    rw [List.find?_cons_of_neg _ (by simpa using h.1)]
    exact ih (by simpa [mapHas] using h.2)

theorem mapGet_append_other (m : List ((Int × Int) × ToolAcc))
    (k k' : Int × Int) (v : ToolAcc) (h : k' ≠ k) :
    mapGet (m ++ [(k, v)]) k' = mapGet m k' := by
  induction m with
  | nil =>
    simp only [List.nil_append, mapGet]
    rw [List.find?_cons_of_neg _ (by simpa using (Ne.symm h))]
  | cons e t ih =>
    by_cases he : e.1 = k'
    · simp only [mapGet, List.cons_append]
      rw [List.find?_cons_of_pos _ (by simpa using he),
        List.find?_cons_of_pos _ (by simpa using he)]
    · simp only [mapGet, List.cons_append]
      rw [List.find?_cons_of_neg _ (by simpa using he),
        List.find?_cons_of_neg _ (by simpa using he)]
      exact ih

theorem mapGet_isSome (m : List ((Int × Int) × ToolAcc)) (k : Int × Int)
    (h : mapHas m k = true) : ∃ a, mapGet m k = some a := by
  induction m with
  | nil => simp [mapHas] at h
  | cons e t ih =>
    by_cases he : e.1 = k
    · refine ⟨e.2, ?_⟩
      rw [mapGet, List.find?_cons_of_pos _ (by simpa using he)]
      rfl
    · simp only [mapHas, List.any_cons, Bool.or_eq_true] at h
      rcases h with h | h
      · exact absurd (by simpa using h) he
      · obtain ⟨a, ha⟩ := ih (by simpa [mapHas] using h)
        refine ⟨a, ?_⟩
        rw [mapGet, List.find?_cons_of_neg _ (by simpa using he)]
        exact ha

theorem mapKeys_update (m : List ((Int × Int) × ToolAcc)) (k : Int × Int)
    (g : ToolAcc → ToolAcc) : mapKeys (mapUpdate m k g) = mapKeys m := by
  simp only [mapKeys, mapUpdate, List.map_map]
  apply List.map_congr_left
  intro e _
  by_cases he : e.1 = k <;> simp [he]

/-- If a value is absent, so is its truthiness; a falsy optional string
defaults to the empty string. -/
theorem optTruthy_false_getD (o : Option (List Char))
    (h : optTruthy o = false) : o.getD [] = [] := by
  unfold optTruthy at h
  simp only [Bool.not_eq_false'] at h
  exact List.isEmpty_iff.mp h

/-- C4 step fact (keys): merging a fragment adds its index at the end of the
Map exactly when it is new — entries stay ordered by first appearance. -/
theorem mergeTC_keys (m : List ((Int × Int) × ToolAcc)) (f : ToolFrag) :
    mapKeys (mergeTC m f) =
      if f.index ∈ mapKeys m then mapKeys m else mapKeys m ++ [f.index] := by
  unfold mergeTC
  by_cases hhas : mapHas m f.index = true
  · rw [if_pos hhas, mapKeys_update, if_pos ((mapHas_iff m f.index).mp hhas)]
  · have hf : mapHas m f.index = false := by simpa using hhas
    rw [if_neg (by simp [hf]), mapKeys_update,
      if_neg (fun hmem => by simp [(mapHas_iff m f.index).mpr hmem] at hf)]
    simp [mapKeys]

/-- C4 step fact (arguments): the arguments buffer under the fragment's
index is only ever appended to — never replaced. -/
theorem mergeTC_args (m : List ((Int × Int) × ToolAcc)) (f : ToolFrag) :
    argsOf (mergeTC m f) f.index =
      some ((argsOf m f.index).getD [] ++
        (if optTruthy f.fargs then f.fargs.getD [] else [])) := by
  unfold mergeTC argsOf
  by_cases hhas : mapHas m f.index = true
  · rw [if_pos hhas]
    obtain ⟨a, ha⟩ := mapGet_isSome m f.index hhas
    rw [mapGet_update, ha]
    by_cases ht : optTruthy f.fargs = true
    · simp [ht]
    · have ht' : optTruthy f.fargs = false := by simpa using ht
      simp [ht']
  · have hf : mapHas m f.index = false := by simpa using hhas
    rw [if_neg (by simp [hf]), mapGet_update,
      mapGet_append_new m f.index _ hf, mapGet_eq_none m f.index hf]
    by_cases ht : optTruthy f.fargs = true
    · simp [ht]
    · have ht' : optTruthy f.fargs = false := by simpa using ht
      simp [ht']

/-- C4 step fact (name): a truthy `function.name` in a fragment overwrites
the accumulated name (so when the stream carries the name only once, that
occurrence sets it); absent it is preserved. -/
theorem mergeTC_name (m : List ((Int × Int) × ToolAcc)) (f : ToolFrag) :
    nameOf (mergeTC m f) f.index =
      some (if optTruthy f.fname then f.fname.getD []
        else (nameOf m f.index).getD []) := by
  unfold mergeTC nameOf
  by_cases hhas : mapHas m f.index = true
  · rw [if_pos hhas]
    obtain ⟨a, ha⟩ := mapGet_isSome m f.index hhas
    rw [mapGet_update, ha]
    by_cases ht : optTruthy f.fname = true
    · simp [ht]
    · have ht' : optTruthy f.fname = false := by simpa using ht
      simp [ht']
  · have hf : mapHas m f.index = false := by simpa using hhas
    rw [if_neg (by simp [hf]), mapGet_update,
      mapGet_append_new m f.index _ hf, mapGet_eq_none m f.index hf]
    by_cases ht : optTruthy f.fname = true
    · simp [ht]
    · have ht' : optTruthy f.fname = false := by simpa using ht
      simp [ht', optTruthy_false_getD _ ht']

/-- C4 step fact (id): same overwrite-when-truthy rule as the name. -/
theorem mergeTC_id (m : List ((Int × Int) × ToolAcc)) (f : ToolFrag) :
    idOf (mergeTC m f) f.index =
      some (if optTruthy f.id then f.id.getD []
        else (idOf m f.index).getD []) := by
  unfold mergeTC idOf
  by_cases hhas : mapHas m f.index = true
  · rw [if_pos hhas]
    obtain ⟨a, ha⟩ := mapGet_isSome m f.index hhas
    rw [mapGet_update, ha]
    by_cases ht : optTruthy f.id = true
    · simp [ht]
    · have ht' : optTruthy f.id = false := by simpa using ht
      simp [ht']
  · have hf : mapHas m f.index = false := by simpa using hhas
    rw [if_neg (by simp [hf]), mapGet_update,
      mapGet_append_new m f.index _ hf, mapGet_eq_none m f.index hf]
    by_cases ht : optTruthy f.id = true
    · simp [ht]
    · have ht' : optTruthy f.id = false := by simpa using ht
      simp [ht', optTruthy_false_getD _ ht']

/-- C4 step fact (isolation): merging a fragment leaves every other index's
entry untouched — all fragments of one index build exactly that index's
call. -/
theorem mergeTC_other (m : List ((Int × Int) × ToolAcc)) (f : ToolFrag)
    (k : Int × Int) (h : k ≠ f.index) :
    mapGet (mergeTC m f) k = mapGet m k := by
  unfold mergeTC
  by_cases hhas : mapHas m f.index = true
  · rw [if_pos hhas, mapGet_update_ne _ _ _ _ h]
  · have hf : mapHas m f.index = false := by simpa using hhas
    rw [if_neg (by simp [hf]), mapGet_update_ne _ _ _ _ h,
      mapGet_append_other m f.index k _ h]

/-- First-appearance accumulation of a key sequence. -/
def firstSeen (ks : List (Int × Int)) (is : List (Int × Int)) :
    List (Int × Int) :=
  is.foldl (fun acc i => if i ∈ acc then acc else acc ++ [i]) ks

/-- The keys of the accumulator after a whole fragment stream are the
fragment indices in order of first appearance. -/
theorem mergeAll_keys :
    ∀ (fs : List ToolFrag) (m : List ((Int × Int) × ToolAcc)),
      mapKeys (fs.foldl mergeTC m) =
        firstSeen (mapKeys m) (fs.map (·.index))
  | [], m => rfl
  | f :: fs, m => by
    rw [List.foldl_cons, mergeAll_keys fs (mergeTC m f), mergeTC_keys]
    rfl

/-- The accumulator never holds two entries for one index. -/
theorem mergeAll_keys_nodup :
    ∀ (fs : List ToolFrag) (m : List ((Int × Int) × ToolAcc)),
      (mapKeys m).Nodup → (mapKeys (fs.foldl mergeTC m)).Nodup
  | [], _, h => h
  | f :: fs, m, h => by
    rw [List.foldl_cons]
    refine mergeAll_keys_nodup fs (mergeTC m f) ?_
    rw [mergeTC_keys]
    by_cases hmem : f.index ∈ mapKeys m
    · rw [if_pos hmem]
      exact h
    · rw [if_neg hmem]
      simp [List.nodup_append, h, hmem]

/-- C4 counterexample: the finalized tool-call list follows the Map's
insertion order (first appearance of each index), not the numeric index
order, and a repeated truthy `name` overwrites the earlier one rather than
keeping the first.  Fragments with indices `1, 0, 0` and names
`g, f, h` finalize to the calls `g, h` in that order — not `f, g` (index
order, first name kept) and not `h, g` (index order, last name kept). -/
theorem toolcall_assembly_counterexample :
    mapKeys (List.foldl mergeTC []
        [⟨(1, 0), none, some "g".toList, none⟩,
         ⟨(0, 0), none, some "f".toList, none⟩,
         ⟨(0, 0), none, some "h".toList, none⟩]) =
      [((1 : Int), (0 : Int)), ((0 : Int), (0 : Int))] ∧
    (finalizeToolCalls (List.foldl mergeTC []
        [⟨(1, 0), none, some "g".toList, none⟩,
         ⟨(0, 0), none, some "f".toList, none⟩,
         ⟨(0, 0), none, some "h".toList, none⟩])).map (fun c => c.fname) =
      ["g".toList, "h".toList] ∧
    [((1 : Int), (0 : Int)), ((0 : Int), (0 : Int))] ≠
      [((0 : Int), (0 : Int)), ((1 : Int), (0 : Int))] ∧
    ["g".toList, "h".toList] ≠ ["f".toList, "g".toList] ∧
    ["g".toList, "h".toList] ≠ ["h".toList, "g".toList] := by
  refine ⟨by decide, by decide, by decide, by decide, by decide⟩

/-- C4 (amended): fragments sharing one index build exactly one call — the
arguments buffer is append-only (never replaced), `id`/`name` are assigned
whenever the fragment carries a truthy one (so a single occurrence in the
stream sets them once), fragments never touch another index's entry, the
Map holds one entry per index ordered by first appearance, and the calls
are finalized in that order as `ToolCall{id, type: 'function',
function: {name, arguments}}`; in particular the spec's three fragments
`{index:0, name:'f'}`, `{index:0, arguments:'{"a'}`,
`{index:0, arguments:'":1}'}` reassemble to the single call
`{name: 'f', arguments: '{"a":1}'}`. -/
theorem toolcall_accumulator_amended :
    (∀ (m : List ((Int × Int) × ToolAcc)) (f : ToolFrag),
      argsOf (mergeTC m f) f.index =
        some ((argsOf m f.index).getD [] ++
          (if optTruthy f.fargs then f.fargs.getD [] else []))) ∧
    (∀ (m : List ((Int × Int) × ToolAcc)) (f : ToolFrag),
      nameOf (mergeTC m f) f.index =
        some (if optTruthy f.fname then f.fname.getD []
          else (nameOf m f.index).getD [])) ∧
    (∀ (m : List ((Int × Int) × ToolAcc)) (f : ToolFrag),
      idOf (mergeTC m f) f.index =
        some (if optTruthy f.id then f.id.getD []
          else (idOf m f.index).getD [])) ∧
    (∀ (m : List ((Int × Int) × ToolAcc)) (f : ToolFrag) (k : Int × Int),
      k ≠ f.index → mapGet (mergeTC m f) k = mapGet m k) ∧
    (∀ fs : List ToolFrag,
      mapKeys (fs.foldl mergeTC []) = firstSeen [] (fs.map (·.index)) ∧
        (mapKeys (fs.foldl mergeTC [])).Nodup) ∧
    readToolSSE
        [("data: \x7b\"choices\":[\x7b\"delta\":\x7b\"tool_calls\":[\x7b\"index\":0,\"function\":\x7b\"name\":\"f\"\x7d\x7d]\x7d\x7d]\x7d\n" ++
          "data: \x7b\"choices\":[\x7b\"delta\":\x7b\"tool_calls\":[\x7b\"index\":0,\"function\":\x7b\"arguments\":\"\x7b\\\"a\"\x7d\x7d]\x7d\x7d]\x7d\n" ++
          "data: \x7b\"choices\":[\x7b\"delta\":\x7b\"tool_calls\":[\x7b\"index\":0,\"function\":\x7b\"arguments\":\"\\\":1\x7d\"\x7d\x7d]\x7d\x7d]\x7d\n" ++
          "data: [DONE]\n").toList] =
      { content := none,
        toolCalls := [⟨[], "function".toList, "f".toList, "\x7b\"a\":1\x7d".toList⟩],
        finishReason := "stop".toList } := by
  refine ⟨mergeTC_args, mergeTC_name, mergeTC_id, mergeTC_other,
    fun fs => ⟨mergeAll_keys fs [], mergeAll_keys_nodup fs [] (by simp [mapKeys])⟩,
    ?_⟩
  decide

/-- Witness for C4 (amended), isolation conjunct: a fragment for index 1
leaves the entry accumulated under index 0 untouched. -/
theorem toolcall_accumulator_amended_witness :
    mapGet (mergeTC [(((0 : Int), (0 : Int)), ⟨"c1".toList, "f".toList, "\x7b\x7d".toList⟩)]
        ⟨(1, 0), none, none, some "x".toList⟩) (0, 0) =
      mapGet [(((0 : Int), (0 : Int)), ⟨"c1".toList, "f".toList, "\x7b\x7d".toList⟩)] (0, 0) :=
  toolcall_accumulator_amended.2.2.2.1 _ _ _ (by decide)

/-- The finish reason one line of the tool-call stream explicitly carries
(after all the guards of the read loop), if any. -/
def lineFinish (line : List Char) : Option (List Char) :=
  let t := jsTrim line
  if t.isEmpty then none
  else if t = "data: [DONE]".toList then none
  else if "data: ".toList.isPrefixOf t then
    match parseJson (t.drop 6) with
    | none => none
    | some j =>
      match getField j "choices".toList with
      | none => none
      | some Json.null => none
      | some (Json.arr l) =>
        match l.head?.bind (fun c => getStrField c "finish_reason".toList) with
        | some fr => if fr.isEmpty then none else some fr
        | none => none
      | some _ => none
  else none

/-- Processing one line updates the tracked finish reason to the line's
explicit one when present and keeps the previous one otherwise. -/
theorem toolLine_finishReason (st : ToolState) (line : List Char) :
    (toolLine st line).finishReason = (lineFinish line).getD st.finishReason := by
  unfold toolLine lineFinish
  dsimp only
  repeat' split
  all_goals rfl

/-- The tracked finish reason after a sequence of lines is the last
explicitly carried one, defaulting to the initial value. -/
theorem toolFold_finishReason (lines : List (List Char)) : ∀ st : ToolState,
    (lines.foldl toolLine st).finishReason =
      ((lines.filterMap lineFinish).getLast?).getD st.finishReason := by
  induction lines with
  | nil => intro st; rfl
  | cons l ls ih =>
    intro st
    rw [List.foldl_cons, ih (toolLine st l), toolLine_finishReason]
    cases hl : lineFinish l with
    | none => simp [List.filterMap_cons, hl]
    | some fr =>
      simp only [List.filterMap_cons, hl]
      cases hrest : ls.filterMap lineFinish with
      | nil => simp
      | cons x xs =>
        rw [List.getLast?_cons_cons]
        obtain ⟨y, hy⟩ : ∃ y, (x :: xs).getLast? = some y :=
          Option.isSome_iff_exists.mp (by simp [List.getLast?_isSome])
        simp [hy]

/-- C5 counterexample: a tool-call stream that accumulates one call but ends
without any explicit `finish_reason` yields `finishReason = 'stop'` — the
code initializes the last-seen reason to `'stop'` and never defaults to
`'tool_calls'`. -/
theorem finish_reason_counterexample :
    (readToolSSE
        [("data: \x7b\"choices\":[\x7b\"delta\":\x7b\"tool_calls\":[\x7b\"index\":0,\"function\":\x7b\"name\":\"f\"\x7d\x7d]\x7d\x7d]\x7d\ndata: [DONE]\n").toList]).toolCalls ≠
      [] ∧
    (readToolSSE
        [("data: \x7b\"choices\":[\x7b\"delta\":\x7b\"tool_calls\":[\x7b\"index\":0,\"function\":\x7b\"name\":\"f\"\x7d\x7d]\x7d\x7d]\x7d\ndata: [DONE]\n").toList]).finishReason =
      "stop".toList ∧
    "stop".toList ≠ "tool_calls".toList := by
  refine ⟨by decide, by decide, by decide⟩

/-- C5 (amended): in the OpenAI streaming tool path the result's
`finishReason` is the last finish reason explicitly seen in the stream and
defaults to `'stop'` when none is seen, regardless of accumulated calls; in
the Ollama chat tool path it is `'stop'` when `done_reason === 'stop'`,
otherwise `'tool_calls'` when at least one call was returned, else
`'stop'`. -/
theorem finish_reason_amended :
    (∀ lines : List (List Char),
      (lines.foldl toolLine toolInit).finishReason =
        ((lines.filterMap lineFinish).getLast?).getD "stop".toList) ∧
    (∀ (content : Option (List Char)) (rawCalls : List OllamaRawCall)
        (doneReason : Option (List Char)),
      (ollamaChatResponse content rawCalls doneReason).finishReason =
        if doneReason = some "stop".toList then "stop".toList
        else if 0 < rawCalls.length then "tool_calls".toList
        else "stop".toList) := by
  constructor
  · intro lines
    exact toolFold_finishReason lines toolInit
  · intro content rawCalls doneReason
    unfold ollamaChatResponse
    dsimp only
    by_cases hdr : doneReason = some "stop".toList
    · simp [hdr]
    · simp only [hdr, if_false]
      cases rawCalls with
      | nil => simp
      | cons a t => simp

/-! ## Malformed frames are dropped (claim C6)

Every decoding function here is total — a bad frame never raises — and the
following theorems show a line whose payload fails to parse is a no-op for
the decoder state, so all frames around it decode exactly as if it were
absent. -/

theorem sseLine_malformed (st : SSEState) (bad : List Char)
    (hpre : "data: ".toList.isPrefixOf (jsTrim bad) = true)
    (hparse : parseJson ((jsTrim bad).drop 6) = none) :
    sseLine st bad = st := by
  unfold sseLine
  have hne : (jsTrim bad).isEmpty = false := by
    cases h : jsTrim bad with
    | nil => rw [h] at hpre; simp [List.isPrefixOf] at hpre
    | cons c t => rfl
  rw [if_neg (by simp [hne])]
  by_cases hdone : jsTrim bad = "data: [DONE]".toList
  · rw [if_pos hdone]
  · rw [if_neg hdone, if_pos hpre, hparse]

theorem toolLine_malformed (st : ToolState) (bad : List Char)
    (hpre : "data: ".toList.isPrefixOf (jsTrim bad) = true)
    (hparse : parseJson ((jsTrim bad).drop 6) = none) :
    toolLine st bad = st := by
  unfold toolLine
  have hne : (jsTrim bad).isEmpty = false := by
    cases h : jsTrim bad with
    | nil => rw [h] at hpre; simp [List.isPrefixOf] at hpre
    | cons c t => rfl
  rw [if_neg (by simp [hne])]
  by_cases hdone : jsTrim bad = "data: [DONE]".toList
  · rw [if_pos hdone]
  · rw [if_neg hdone, if_pos hpre, hparse]

theorem ollamaLine_malformed (st : OllamaState) (bad : List Char)
    (hparse : parseJson bad = none) : ollamaLine st bad = st := by
  unfold ollamaLine
  by_cases hempty : (jsTrim bad).isEmpty = true
  · rw [if_pos hempty]
  · rw [if_neg hempty, hparse]

/-- C6: for both decoders, a line whose payload fails to parse as JSON is
silently dropped: decoding is total (never raises), the malformed line
leaves the decoder state unchanged, and every line around it is decoded and
accumulated exactly as if the malformed line were absent — in the SSE
decoders for a `data: ` line whose JSON payload does not parse, in the
NDJSON decoder for any line that does not parse. -/
theorem malformed_line_dropped :
    (∀ (st : SSEState) (l1 l2 : List (List Char)) (bad : List Char),
      "data: ".toList.isPrefixOf (jsTrim bad) = true →
      parseJson ((jsTrim bad).drop 6) = none →
      (l1 ++ bad :: l2).foldl sseLine st = (l1 ++ l2).foldl sseLine st) ∧
    (∀ (st : ToolState) (l1 l2 : List (List Char)) (bad : List Char),
      "data: ".toList.isPrefixOf (jsTrim bad) = true →
      parseJson ((jsTrim bad).drop 6) = none →
      (l1 ++ bad :: l2).foldl toolLine st = (l1 ++ l2).foldl toolLine st) ∧
    (∀ (st : OllamaState) (l1 l2 : List (List Char)) (bad : List Char),
      parseJson bad = none →
      (l1 ++ bad :: l2).foldl ollamaLine st = (l1 ++ l2).foldl ollamaLine st) := by
  refine ⟨?_, ?_, ?_⟩
  · intro st l1 l2 bad hpre hparse
    rw [List.foldl_append, List.foldl_append, List.foldl_cons,
      sseLine_malformed _ bad hpre hparse]
  · intro st l1 l2 bad hpre hparse
    rw [List.foldl_append, List.foldl_append, List.foldl_cons,
      toolLine_malformed _ bad hpre hparse]
  · intro st l1 l2 bad hparse
    rw [List.foldl_append, List.foldl_append, List.foldl_cons,
      ollamaLine_malformed _ bad hparse]

/-- Witness for C6: a malformed `data: {oops` line between two well-formed
content frames decodes to the same state as the stream without it. -/
theorem malformed_line_dropped_witness :
    (["data: \x7b\"choices\":[\x7b\"delta\":\x7b\"content\":\"A\"\x7d\x7d]\x7d".toList] ++
        "data: \x7boops".toList ::
        ["data: \x7b\"choices\":[\x7b\"delta\":\x7b\"content\":\"B\"\x7d\x7d]\x7d".toList]).foldl
      sseLine sseInit =
    (["data: \x7b\"choices\":[\x7b\"delta\":\x7b\"content\":\"A\"\x7d\x7d]\x7d".toList] ++
        ["data: \x7b\"choices\":[\x7b\"delta\":\x7b\"content\":\"B\"\x7d\x7d]\x7d".toList]).foldl
      sseLine sseInit :=
  malformed_line_dropped.1 sseInit _ _ "data: \x7boops".toList (by decide) rfl

/-! ## Chunk-boundary invariance (claim C1) -/

/-- Prepend a carried-over fragment to the first complete line of the next
split, when there is one. -/
def mergeFirst (f : List Char) : List (List Char) → List (List Char)
  | [] => []
  | l :: ls => (f ++ l) :: ls

theorem splitNl_cons_nl (x : List Char) :
    splitNl ('\n' :: x) = ([] :: (splitNl x).1, (splitNl x).2) := by
  simp [splitNl]

theorem splitNl_cons_other (c : Char) (x : List Char) (hc : c ≠ '\n') :
    splitNl (c :: x) =
      (match splitNl x with
       | ([], frag) => ([], c :: frag)
       | (l :: ls, frag) => ((c :: l) :: ls, frag)) := by
  simp [splitNl, hc]

/-- The trailing fragment of a split never contains a newline. -/
theorem splitNl_frag_no_nl : ∀ cs : List Char, '\n' ∉ (splitNl cs).2 := by
  intro cs
  induction cs with
  | nil => simp [splitNl]
  | cons c t ih =>
    by_cases hc : c = '\n'
    · subst hc
      rw [splitNl_cons_nl]
      exact ih
    · rw [splitNl_cons_other c t hc]
      cases hs : splitNl t with
      | mk lt ft =>
        cases lt with
        | nil =>
          rw [hs] at ih
          simp only [List.mem_cons]
          rintro (h | h)
          · exact hc h.symm
          · exact ih h
        | cons l ls =>
          rw [hs] at ih
          exact ih

/-- A newline-free text splits into no complete line and itself as the
fragment. -/
theorem splitNl_of_no_nl : ∀ cs : List Char, '\n' ∉ cs → splitNl cs = ([], cs) := by
  intro cs
  induction cs with
  | nil => intro _; rfl
  | cons c t ih =>
    intro h
    have hc : c ≠ '\n' := fun he => h (by simp [he])
    have ht : '\n' ∉ t := fun he => h (by simp [he])
    rw [splitNl_cons_other c t hc, ih ht]

/-- Splitting a concatenation: the left part's complete lines, then the
right part's lines with the left fragment carried into the first, and the
fragments concatenated when the right part has no newline. -/
theorem splitNl_append : ∀ a b : List Char,
    splitNl (a ++ b) =
      ((splitNl a).1 ++ mergeFirst (splitNl a).2 (splitNl b).1,
        if (splitNl b).1 = [] then (splitNl a).2 ++ (splitNl b).2
        else (splitNl b).2) := by
  intro a
  induction a with
  | nil =>
    intro b
    show splitNl b = _
    cases hsb : splitNl b with
    | mk lb fb =>
      cases lb with
      | nil => simp [splitNl, mergeFirst]
      | cons l ls => simp [splitNl, mergeFirst]
  | cons c a' ih =>
    intro b
    by_cases hc : c = '\n'
    · subst hc
      rw [List.cons_append, splitNl_cons_nl, splitNl_cons_nl, ih b]
      simp
    · rw [List.cons_append, splitNl_cons_other c _ hc, splitNl_cons_other c a' hc,
        ih b]
      rcases hsa : splitNl a' with ⟨la, fa⟩
      rcases hsb : splitNl b with ⟨lb, fb⟩
      cases la with
      | nil =>
        cases lb with
        | nil => simp [mergeFirst]
        | cons l2 ls2 => simp [mergeFirst]
      | cons l ls =>
        cases lb with
        | nil => simp [mergeFirst]
        | cons l2 ls2 => simp [mergeFirst]

theorem sseLine_set_buffer (st : SSEState) (b l : List Char) :
    sseLine { st with buffer := b } l = { sseLine st l with buffer := b } := by
  unfold sseLine
  dsimp only
  repeat' split
  all_goals rfl

theorem toolLine_set_buffer (st : ToolState) (b l : List Char) :
    toolLine { st with buffer := b } l = { toolLine st l with buffer := b } := by
  unfold toolLine
  dsimp only
  repeat' split
  all_goals rfl

theorem foldl_sseLine_set_buffer :
    ∀ (L : List (List Char)) (st : SSEState) (b : List Char),
      L.foldl sseLine { st with buffer := b } =
        { L.foldl sseLine st with buffer := b }
  | [], _, _ => rfl
  | l :: L, st, b => by
    rw [List.foldl_cons, sseLine_set_buffer,
      foldl_sseLine_set_buffer L (sseLine st l) b, List.foldl_cons]

theorem foldl_toolLine_set_buffer :
    ∀ (L : List (List Char)) (st : ToolState) (b : List Char),
      L.foldl toolLine { st with buffer := b } =
        { L.foldl toolLine st with buffer := b }
  | [], _, _ => rfl
  | l :: L, st, b => by
    rw [List.foldl_cons, toolLine_set_buffer,
      foldl_toolLine_set_buffer L (toolLine st l) b, List.foldl_cons]

/-- Decoding two consecutive chunks is the same as decoding their
concatenation: the carried-over fragment is prepended to the next chunk
before re-splitting. -/
theorem sseChunk_append (st : SSEState) (c1 c2 : List Char) :
    sseChunk (sseChunk st c1) c2 = sseChunk st (c1 ++ c2) := by
  unfold sseChunk
  rcases hs1 : splitNl (st.buffer ++ c1) with ⟨L1, f1⟩
  rcases hs2 : splitNl c2 with ⟨L2, f2⟩
  have hf1 : '\n' ∉ f1 := by
    have h := splitNl_frag_no_nl (st.buffer ++ c1)
    rw [hs1] at h
    exact h
  dsimp only
  rw [splitNl_append f1 c2, splitNl_of_no_nl f1 hf1, hs2]
  rw [← List.append_assoc, splitNl_append (st.buffer ++ c1) c2, hs1, hs2]
  dsimp only
  rw [foldl_sseLine_set_buffer]
  simp [List.foldl_append]

theorem toolChunk_append (st : ToolState) (c1 c2 : List Char) :
    toolChunk (toolChunk st c1) c2 = toolChunk st (c1 ++ c2) := by
  unfold toolChunk
  rcases hs1 : splitNl (st.buffer ++ c1) with ⟨L1, f1⟩
  rcases hs2 : splitNl c2 with ⟨L2, f2⟩
  have hf1 : '\n' ∉ f1 := by
    have h := splitNl_frag_no_nl (st.buffer ++ c1)
    rw [hs1] at h
    exact h
  dsimp only
  rw [splitNl_append f1 c2, splitNl_of_no_nl f1 hf1, hs2]
  rw [← List.append_assoc, splitNl_append (st.buffer ++ c1) c2, hs1, hs2]
  dsimp only
  rw [foldl_toolLine_set_buffer]
  simp [List.foldl_append]

/-- Folding the chunks of a stream whose buffer is newline-free equals
delivering their concatenation as one chunk. -/
theorem foldl_sseChunk_join :
    ∀ (cs : List (List Char)) (st : SSEState), '\n' ∉ st.buffer →
      cs.foldl sseChunk st = sseChunk st cs.flatten
  | [], st, h => by
    show st = sseChunk st []
    unfold sseChunk
    rw [List.append_nil, splitNl_of_no_nl st.buffer h]
    rfl
  | c :: cs, st, h => by
    rw [List.foldl_cons, List.flatten_cons, ← sseChunk_append st c cs.flatten]
    refine foldl_sseChunk_join cs (sseChunk st c) ?_
    unfold sseChunk
    rcases hs : splitNl (st.buffer ++ c) with ⟨L, f⟩
    have hf := splitNl_frag_no_nl (st.buffer ++ c)
    rw [hs] at hf
    exact hf

theorem foldl_toolChunk_join :
    ∀ (cs : List (List Char)) (st : ToolState), '\n' ∉ st.buffer →
      cs.foldl toolChunk st = toolChunk st cs.flatten
  | [], st, h => by
    show st = toolChunk st []
    unfold toolChunk
    rw [List.append_nil, splitNl_of_no_nl st.buffer h]
    rfl
  | c :: cs, st, h => by
    rw [List.foldl_cons, List.flatten_cons, ← toolChunk_append st c cs.flatten]
    refine foldl_toolChunk_join cs (toolChunk st c) ?_
    unfold toolChunk
    rcases hs : splitNl (st.buffer ++ c) with ⟨L, f⟩
    have hf := splitNl_frag_no_nl (st.buffer ++ c)
    rw [hs] at hf
    exact hf

/-- C1: the event-stream decoders (`readSSEResponse` and
`readToolSSEResponse`) are invariant under re-chunking — delivering any
split of the byte sequence decodes exactly as delivering it whole, with the
same accumulated text, the same `onChunk` invocations in the same order and
the same tool-call fragments, because the unterminated trailing fragment of
each chunk is carried over.  The line-delimited Ollama decoder
(`performOllamaStream`) is NOT: it splits each chunk on `'\n'` with no
carry-over buffer, so the NDJSON frame `{"response":"hi","done":true}`
split across two chunks parses as two malformed fragments and both are
dropped — the whole delivery decodes to `'hi'`, the split delivery to
`''`. -/
theorem stream_chunking :
    (∀ chunks : List (List Char), sseDecode chunks = sseDecode [chunks.flatten]) ∧
    (∀ chunks : List (List Char),
      readToolSSE chunks = readToolSSE [chunks.flatten]) ∧
    (ollamaDecode [("\x7b\"response\":\"hi\",\"done\":true\x7d\n").toList]).fullText =
      "hi".toList ∧
    (ollamaDecode ["\x7b\"resp".toList, "onse\":\"hi\",\"done\":true\x7d\n".toList]).fullText =
      [] ∧
    "\x7b\"resp".toList ++ "onse\":\"hi\",\"done\":true\x7d\n".toList =
      ("\x7b\"response\":\"hi\",\"done\":true\x7d\n").toList := by
  refine ⟨?_, ?_, by decide, by decide, by decide⟩
  · intro chunks
    unfold sseDecode
    rw [foldl_sseChunk_join chunks sseInit (by simp [sseInit])]
    rfl
  · intro chunks
    unfold readToolSSE
    rw [foldl_toolChunk_join chunks toolInit (by simp [toolInit])]
    rfl

/-! ## `extractJSON` failure modes (claim C7) -/

/-- Discriminator: the result is the no-JSON-found error. -/
def isNoJSONFound : Except JErr Json → Bool
  | Except.error (JErr.noJSONFound _) => true
  | _ => false

/-- Discriminator: the result is the invalid-JSON error. -/
def isInvalidJSON : Except JErr Json → Bool
  | Except.error (JErr.invalidJSON _) => true
  | _ => false

/-- C7 counterexample: on `"}{"` the first `{` (index 1) and the last `}`
(index 0) are both present but out of order, yet `extractJSON` fails with
the invalid-JSON error (the empty slice fails to parse) — not with
NoJSONFound as claimed: the code only checks `start === -1 || end === -1`,
with no order check. -/
theorem extractJSON_counterexample :
    firstIdx (cleanedOf "\x7d\x7b".toList) '{' = some 1 ∧
    lastIdx (cleanedOf "\x7d\x7b".toList) '}' = some 0 ∧
    isNoJSONFound (extractJSON "\x7d\x7b".toList) = false ∧
    isInvalidJSON (extractJSON "\x7d\x7b".toList) = true :=
  ⟨rfl, rfl, rfl, rfl⟩

/-- C7 (amended): `extractJSON` trims, removes code fences, then locates the
first `{` and the last `}`; it fails with the no-JSON-found error exactly
when one of them is absent; when both exist but the last `}` precedes the
first `{`, the inclusive slice between them is empty, the repairs leave it
empty, parsing fails and the result is the invalid-JSON error (with an
empty snippet) — not NoJSONFound; otherwise the slice is repaired
(duplicated-quote artifact collapsed, trailing commas stripped) and parsed;
`extractJSON("```json\n{\"x\": 1,}\n```")` yields the object `{"x":1}` and
`extractJSON("no braces here")` fails with NoJSONFound carrying the
input. -/
theorem extractJSON_amended :
    (∀ t : List Char,
      isNoJSONFound (extractJSON t) = true ↔
        (firstIdx (cleanedOf t) '{' = none ∨
          lastIdx (cleanedOf t) '}' = none)) ∧
    (∀ (t : List Char) (s e : Nat),
      firstIdx (cleanedOf t) '{' = some s →
      lastIdx (cleanedOf t) '}' = some e → e < s →
      extractJSON t = Except.error (JErr.invalidJSON [])) ∧
    extractJSON "```json\n\x7b\"x\": 1,\x7d\n```".toList =
      Except.ok (Json.obj [("x".toList, Json.num 1 0)]) ∧
    extractJSON "no braces here".toList =
      Except.error (JErr.noJSONFound "no braces here".toList) := by
  refine ⟨?_, ?_, rfl, rfl⟩
  · intro t
    unfold extractJSON
    cases h1 : firstIdx (cleanedOf t) '{' with
    | none =>
      cases h2 : lastIdx (cleanedOf t) '}' with
      | none => simp [h1, h2, isNoJSONFound]
      | some e => simp [h1, h2, isNoJSONFound]
    | some s =>
      cases h2 : lastIdx (cleanedOf t) '}' with
      | none => simp [h1, h2, isNoJSONFound]
      | some e =>
        cases hp : parseJson (sanitizeJSON (jsSlice (cleanedOf t) s (e + 1))) with
        | none => simp [h1, h2, hp, isNoJSONFound]
        | some v => simp [h1, h2, hp, isNoJSONFound]
  · intro t s e h1 h2 hlt
    unfold extractJSON
    dsimp only
    rw [h1, h2]
    have hslice : jsSlice (cleanedOf t) s (e + 1) = [] := by
      unfold jsSlice
      rw [show e + 1 - s = 0 from by omega]
      rfl
    show (match parseJson (sanitizeJSON (jsSlice (cleanedOf t) s (e + 1))) with
      | some v => Except.ok v
      | none => Except.error (JErr.invalidJSON
          (List.take 200 (sanitizeJSON (jsSlice (cleanedOf t) s (e + 1)))))) =
      Except.error (JErr.invalidJSON [])
    rw [hslice]
    rfl

/-- Witness for C7 (amended): the out-of-order input `"}{"` produces the
invalid-JSON error with an empty snippet. -/
theorem extractJSON_amended_witness :
    extractJSON "\x7d\x7b".toList = Except.error (JErr.invalidJSON []) :=
  extractJSON_amended.2.1 "\x7d\x7b".toList 1 0 rfl rfl (by omega)
